import Mathlib

/-!
Shallow embedding of the `littlebrain_rlcard` dealer library
(`src/littlebrain_rlcard/dealers/*.py`, `envs/shuffle_guess/game.py`)
and proofs about the claims of its specification.

Modelling conventions:
* Python's `np_random` source is modelled as a stream `g : ℕ → ℕ` together
  with a cursor `pos` stored in the dealer state.  A call
  `uniform_int(rng, lo, hi)` consumes one stream value and reduces it into
  the requested range; every seedable generator is one such stream.
* Python exceptions become an explicit error type `DealerErr`; `draw`
  returns `Except DealerErr (ℕ × State)`.
* Unbounded rejection loops (Bitmap, AdaptiveThreshold) take an explicit
  fuel argument; running out of fuel is a distinguished error, and claims
  about values returned by `draw` are conditioned on a successful result.
* Probabilities (`peek_next_distribution`) are modelled over `ℚ`.
-/

/-- Error kinds raised by the Python code (`RuntimeError` / `ValueError`
with distinguishing messages). `outOfFuel` is the model's marker for a
rejection loop that has not yet accepted. -/
inductive DealerErr where
  | exhausted     -- BaseDealer._check_exhausted
  | inconsistent  -- PerfectDealer.draw: "No drawable cells"
  | selectFail    -- bit_select ValueError
  | finalEmpty    -- AdaptiveThresholdDealer._draw_final safety raise
  | episodeOver   -- ShuffleGuessGame.step after terminal
  | invalidConfig -- the spec's InvalidConfig error (no code raises it)
  | outOfFuel     -- model artifact: rejection loop fuel exhausted
  deriving DecidableEq, Repr

/-- `uniform_int(np_random, lo, hi)` (common.py): one uniformly random
integer in `[lo, hi]`.  Modelled by consuming stream value `g pos` and
reducing it into the range; all callers use `lo = 0`. -/
def uniformInt (g : ℕ → ℕ) (pos lo hi : ℕ) : ℕ :=
  lo + g pos % (hi + 1 - lo)

/-- Structural worker for `popcount` (the first argument is fuel; `m`
halves each step, so fuel `m` always suffices). -/
def popcountGo : ℕ → ℕ → ℕ
  | 0, _ => 0
  | fuel + 1, m => if m = 0 then 0 else m % 2 + popcountGo fuel (m / 2)

/-- `popcount(x)` (common.py): number of set bits of `x`. -/
def popcount (m : ℕ) : ℕ := popcountGo m m

/-- Structural worker for `bit_select`. -/
def bitSelectGo : ℕ → ℕ → ℕ → Option ℕ
  | 0, _, _ => none
  | fuel + 1, m, r =>
    if m = 0 then none
    else if m % 2 = 1 then
      if r = 0 then some 0
      else (bitSelectGo fuel (m / 2) (r - 1)).map (· + 1)
    else
      (bitSelectGo fuel (m / 2) r).map (· + 1)

/-- `bit_select(mask, r)` (common.py): index of the `r`-th (0-based) set
bit of `mask`, scanning from the least significant bit; the Python
`ValueError` branch is `none`. -/
def bitSelect (m r : ℕ) : Option ℕ := bitSelectGo m m r

/-- Structural worker for `setBits`. -/
def setBitsGo : ℕ → ℕ → List ℕ
  | 0, _ => []
  | fuel + 1, m =>
    if m = 0 then []
    else (if m % 2 = 1 then [0] else []) ++ (setBitsGo fuel (m / 2)).map (· + 1)

/-- List of positions of set bits of a natural number, in increasing
order (proof device used to state "the multiset of set bits"). -/
def setBits (m : ℕ) : List ℕ := setBitsGo m m

-- Fuel irrelevance and unfolding equations for the bit helpers.

theorem popcountGo_irrel : ∀ f1 f2 m, m ≤ f1 → m ≤ f2 →
    popcountGo f1 m = popcountGo f2 m := by
  intro f1
  induction f1 with
  | zero =>
    intro f2 m h1 _
    have : m = 0 := by omega
    subst this
    cases f2 <;> simp [popcountGo]
  | succ f1 ih =>
    intro f2 m h1 h2
    match f2 with
    | 0 =>
      have : m = 0 := by omega
      subst this
      simp [popcountGo]
    | f2 + 1 =>
      by_cases hm : m = 0
      · subst hm; simp [popcountGo]
      · rw [popcountGo, popcountGo, if_neg hm, if_neg hm,
          ih f2 (m / 2) (by omega) (by omega)]

theorem popcount_zero : popcount 0 = 0 := rfl

theorem popcount_succ (m : ℕ) :
    popcount (m + 1) = (m + 1) % 2 + popcount ((m + 1) / 2) := by
  rw [popcount, popcount, popcountGo, if_neg (by omega)]
  rw [popcountGo_irrel m ((m + 1) / 2) ((m + 1) / 2) (by omega) (le_refl _)]

theorem bitSelectGo_irrel : ∀ f1 f2 m r, m ≤ f1 → m ≤ f2 →
    bitSelectGo f1 m r = bitSelectGo f2 m r := by
  intro f1
  induction f1 with
  | zero =>
    intro f2 m r h1 _
    have : m = 0 := by omega
    subst this
    cases f2 <;> simp [bitSelectGo]
  | succ f1 ih =>
    intro f2 m r h1 h2
    match f2 with
    | 0 =>
      have : m = 0 := by omega
      subst this
      simp [bitSelectGo]
    | f2 + 1 =>
      by_cases hm : m = 0
      · subst hm; simp [bitSelectGo]
      · rw [bitSelectGo, bitSelectGo, if_neg hm, if_neg hm,
          ih f2 (m / 2) (r - 1) (by omega) (by omega),
          ih f2 (m / 2) r (by omega) (by omega)]

theorem bitSelect_zero (r : ℕ) : bitSelect 0 r = none := rfl

theorem bitSelect_succ (m r : ℕ) :
    bitSelect (m + 1) r =
      if (m + 1) % 2 = 1 then
        if r = 0 then some 0
        else (bitSelect ((m + 1) / 2) (r - 1)).map (· + 1)
      else
        (bitSelect ((m + 1) / 2) r).map (· + 1) := by
  rw [bitSelect, bitSelect, bitSelect, bitSelectGo, if_neg (by omega)]
  rw [bitSelectGo_irrel m ((m + 1) / 2) ((m + 1) / 2) (r - 1) (by omega) (le_refl _),
    bitSelectGo_irrel m ((m + 1) / 2) ((m + 1) / 2) r (by omega) (le_refl _)]

theorem setBitsGo_irrel : ∀ f1 f2 m, m ≤ f1 → m ≤ f2 →
    setBitsGo f1 m = setBitsGo f2 m := by
  intro f1
  induction f1 with
  | zero =>
    intro f2 m h1 _
    have : m = 0 := by omega
    subst this
    cases f2 <;> simp [setBitsGo]
  | succ f1 ih =>
    intro f2 m h1 h2
    match f2 with
    | 0 =>
      have : m = 0 := by omega
      subst this
      simp [setBitsGo]
    | f2 + 1 =>
      by_cases hm : m = 0
      · subst hm; simp [setBitsGo]
      · rw [setBitsGo, setBitsGo, if_neg hm, if_neg hm,
          ih f2 (m / 2) (by omega) (by omega)]

theorem setBits_zero : setBits 0 = [] := rfl

theorem setBits_succ (m : ℕ) :
    setBits (m + 1) =
      (if (m + 1) % 2 = 1 then [0] else [])
        ++ (setBits ((m + 1) / 2)).map (· + 1) := by
  rw [setBits, setBits, setBitsGo, if_neg (by omega)]
  rw [setBitsGo_irrel m ((m + 1) / 2) ((m + 1) / 2) (by omega) (le_refl _)]

/-- `mask &= ~(1 << p)` on an unbounded Python integer: clear bit `p`. -/
def clearBit (m p : ℕ) : ℕ :=
  if m.testBit p then m - 2 ^ p else m

-- ---------------------------------------------------------------------------
-- Generic draw-sequence runner
-- ---------------------------------------------------------------------------

/-- Run `step` (a dealer's `draw`) `k` times, collecting the returned ids. -/
def drawN {σ : Type} (step : σ → Except DealerErr (ℕ × σ)) :
    ℕ → σ → Except DealerErr (List ℕ × σ)
  | 0, s => .ok ([], s)
  | k + 1, s =>
    match step s with
    | .error e => .error e
    | .ok (x, s') =>
      match drawN step k s' with
      | .error e => .error e
      | .ok (l, s'') => .ok (x :: l, s'')

-- ---------------------------------------------------------------------------
-- FisherYatesDealer (fisher_yates.py)
-- ---------------------------------------------------------------------------

/-- State of `FisherYatesDealer` (fields `_n`, `_num_drawn`, `_array`,
`_remaining`) plus the rng cursor. -/
structure FYState where
  n : ℕ
  numDrawn : ℕ
  array : List ℕ
  remaining : ℕ
  pos : ℕ
  deriving Repr

/-- `FisherYatesDealer.reset(n, np_random)`. -/
def FYState.reset (n pos : ℕ) : FYState :=
  { n := n, numDrawn := 0, array := List.range n, remaining := n, pos := pos }

/-- `FisherYatesDealer.draw()`. -/
def FYState.draw (g : ℕ → ℕ) (s : FYState) : Except DealerErr (ℕ × FYState) :=
  if s.numDrawn ≥ s.n then .error .exhausted
  else
    let i := uniformInt g s.pos 0 (s.remaining - 1)
    let out := s.array.getD i 0
    .ok (out,
      { n := s.n
        numDrawn := s.numDrawn + 1
        array := s.array.set i (s.array.getD (s.remaining - 1) 0)
        remaining := s.remaining - 1
        pos := s.pos + 1 })

/-- `FisherYatesDealer.peek_next_distribution()` over `ℚ`: association
list `[(V[i], 1/rem)]` for `i < rem` (the Python dict keys are distinct on
reachable states, proved separately). -/
def FYState.peek (s : FYState) : Option (List (ℕ × ℚ)) :=
  let rem := s.n - s.numDrawn
  if rem = 0 then none
  else some (((s.array.take s.remaining)).map (fun c => (c, (1 : ℚ) / rem)))

/-- Structural invariant of `FisherYatesDealer` states. -/
def FYState.Inv (s : FYState) : Prop :=
  s.array.length = s.n ∧ s.remaining + s.numDrawn = s.n

/-- Remaining ids of a `FisherYatesDealer` state: live prefix `V[0..m)`. -/
def FYState.rem (s : FYState) : Multiset ℕ :=
  (s.array.take s.remaining : List ℕ)

-- ---------------------------------------------------------------------------
-- List/multiset helper lemmas
-- ---------------------------------------------------------------------------

theorem getD_mem {α : Type} {l : List α} {i : ℕ} (d : α) (h : i < l.length) :
    l.getD i d ∈ l := by
  rw [List.getD_eq_getElem?_getD, List.getElem?_eq_getElem h]
  exact List.getElem_mem h

theorem getD_take {α : Type} {l : List α} {i k : ℕ} (d : α) (h : i < k) :
    (l.take k).getD i d = l.getD i d := by
  rw [List.getD_eq_getElem?_getD, List.getD_eq_getElem?_getD,
    List.getElem?_take_of_lt h]

theorem multiset_set {α : Type} [DecidableEq α] {l : List α} (d : α) :
    ∀ {i : ℕ}, i < l.length → ∀ x : α,
    ((l.set i x : List α) : Multiset α) =
      x ::ₘ ((l : Multiset α).erase (l.getD i d)) := by
  induction l with
  | nil => intro i h; simp at h
  | cons a t ih =>
    intro i h x
    match i with
    | 0 => simp [Multiset.cons_coe]
    | i + 1 =>
      have hi : i < t.length := by simpa using h
      have hmem : t.getD i d ∈ (t : Multiset α) := Multiset.mem_coe.mpr (getD_mem d hi)
      have : ((t.set i x : List α) : Multiset α)
          = x ::ₘ ((t : Multiset α).erase (t.getD i d)) := ih hi x
      simp only [List.set_cons_succ, List.getD_cons_succ, ← Multiset.cons_coe,
        this, Multiset.erase_cons_tail_of_mem hmem]
      exact Multiset.cons_swap a x _

theorem multiset_take_erase {l : List ℕ} {i m : ℕ}
    (him : i < m) (hml : m ≤ l.length) :
    (((l.set i (l.getD (m - 1) 0)).take (m - 1) : List ℕ) : Multiset ℕ)
      = ((l.take m : List ℕ) : Multiset ℕ).erase (l.getD i 0) := by
  obtain ⟨k, rfl⟩ : ∃ k, m = k + 1 :=
    ⟨m - 1, (Nat.succ_pred_eq_of_pos (Nat.lt_of_le_of_lt (Nat.zero_le i) him)).symm⟩
  have hk : k < l.length := Nat.lt_of_succ_le hml
  have hlen : (l.take k).length = k := by
    rw [List.length_take]; exact Nat.min_eq_left (Nat.le_of_lt hk)
  have htake : l.take (k + 1) = l.take k ++ [l.getD k 0] := by
    rw [List.take_succ, List.getElem?_eq_getElem hk]
    simp [List.getD_eq_getElem?_getD, List.getElem?_eq_getElem hk]
  simp only [Nat.add_sub_cancel]
  rcases Nat.lt_or_eq_of_le (Nat.lt_succ_iff.mp him) with hik | hik
  · rw [List.set_take, htake, ← Multiset.coe_add, Multiset.coe_singleton]
    have hik' : i < (l.take k).length := by rw [hlen]; exact hik
    have hmem : l.getD i 0 ∈ (l.take k : Multiset ℕ) := by
      have := @getD_mem ℕ (l.take k) i 0 hik'
      rwa [getD_take 0 hik] at this
    rw [Multiset.erase_add_left_pos _ hmem,
      multiset_set 0 hik' (l.getD k 0), getD_take 0 hik]
    rw [add_comm, Multiset.singleton_add]
  · subst hik
    rw [List.set_take, List.set_eq_of_length_le (le_of_eq hlen), htake,
      ← Multiset.coe_add, Multiset.coe_singleton,
      Multiset.erase_add_right_pos _ (Multiset.mem_singleton_self _),
      Multiset.erase_singleton, add_zero]

-- ---------------------------------------------------------------------------
-- Generic lemmas about running a dealer
-- ---------------------------------------------------------------------------

theorem drawN_rem {σ : Type} (step : σ → Except DealerErr (ℕ × σ))
    (P : σ → Prop) (rem : σ → Multiset ℕ)
    (hstep : ∀ s x s', P s → step s = .ok (x, s') →
      P s' ∧ x ∈ rem s ∧ rem s' = (rem s).erase x) :
    ∀ (k : ℕ) (s : σ) (l : List ℕ) (s' : σ), P s →
      drawN step k s = .ok (l, s') →
      P s' ∧ rem s = (l : Multiset ℕ) + rem s' ∧ l.length = k := by
  intro k
  induction k with
  | zero =>
    intro s l s' hP h
    simp only [drawN] at h
    cases h
    exact ⟨hP, by simp, rfl⟩
  | succ k ih =>
    intro s l s' hP h
    simp only [drawN] at h
    split at h
    · cases h
    · rename_i p x t hs
      split at h
      · cases h
      · rename_i q l2 s2 hrec
        cases h
        obtain ⟨hPt, hx, hrt⟩ := hstep s x t hP hs
        obtain ⟨hP', hsum, hlen⟩ := ih t l2 s' hPt hrec
        refine ⟨hP', ?_, by simp [hlen]⟩
        calc rem s = x ::ₘ (rem s).erase x := (Multiset.cons_erase hx).symm
        _ = x ::ₘ rem t := by rw [hrt]
        _ = x ::ₘ ((l2 : Multiset ℕ) + rem s') := by rw [hsum]
        _ = (x :: l2 : List ℕ) + rem s' := by
            rw [← Multiset.cons_coe, Multiset.cons_add]

theorem drawN_count {σ : Type} (step : σ → Except DealerErr (ℕ × σ))
    (nd : σ → ℕ)
    (hstep : ∀ s x s', step s = .ok (x, s') → nd s' = nd s + 1) :
    ∀ (k : ℕ) (s : σ) (l : List ℕ) (s' : σ),
      drawN step k s = .ok (l, s') → nd s' = nd s + k := by
  intro k
  induction k with
  | zero => intro s l s' h; simp only [drawN] at h; cases h; rfl
  | succ k ih =>
    intro s l s' h
    simp only [drawN] at h
    split at h
    · cases h
    · rename_i p x t hs
      split at h
      · cases h
      · rename_i q l2 s2 hrec
        cases h
        rw [ih t l2 s' hrec, hstep s x t hs]
        omega

/-- If the state starts with remaining multiset `{0, …, n-1}` and `n` draws
all succeed, the outputs are a permutation of `{0, …, n-1}`. -/
theorem drawN_perm {σ : Type} (step : σ → Except DealerErr (ℕ × σ))
    (P : σ → Prop) (rem : σ → Multiset ℕ)
    (hstep : ∀ s x s', P s → step s = .ok (x, s') →
      P s' ∧ x ∈ rem s ∧ rem s' = (rem s).erase x)
    {n : ℕ} {s : σ} {l : List ℕ} {s' : σ}
    (hP : P s) (hrem : rem s = (List.range n : List ℕ))
    (h : drawN step n s = .ok (l, s')) :
    (l : Multiset ℕ) = (List.range n : List ℕ) := by
  obtain ⟨hP', hsum, hlen⟩ := drawN_rem step P rem hstep n s l s' hP h
  have hcard : Multiset.card (rem s) = n := by
    rw [hrem]; simp
  have hcard' : Multiset.card (rem s') = 0 := by
    have := congrArg Multiset.card hsum
    simp only [Multiset.card_add, Multiset.coe_card] at this
    omega
  have : rem s' = 0 := Multiset.card_eq_zero.mp hcard'
  rw [this, add_zero] at hsum
  rw [← hsum, hrem]

-- ---------------------------------------------------------------------------
-- FisherYatesDealer lemmas
-- ---------------------------------------------------------------------------

theorem FYState.draw_exhausted_fy (g : ℕ → ℕ) {s : FYState}
    (h : s.numDrawn ≥ s.n) : s.draw g = .error .exhausted := by
  rw [FYState.draw, if_pos h]

theorem FYState.draw_ok (g : ℕ → ℕ) {s : FYState} (h : ¬ s.numDrawn ≥ s.n)
    (hrem : 0 < s.remaining) :
    s.draw g = .ok (s.array.getD (g s.pos % s.remaining) 0,
      { n := s.n
        numDrawn := s.numDrawn + 1
        array := s.array.set (g s.pos % s.remaining)
          (s.array.getD (s.remaining - 1) 0)
        remaining := s.remaining - 1
        pos := s.pos + 1 }) := by
  rw [FYState.draw, if_neg h]
  have : s.remaining - 1 + 1 - 0 = s.remaining := by omega
  simp [uniformInt, this]

theorem FYState.draw_step_fy (g : ℕ → ℕ) {s : FYState} {x : ℕ} {s' : FYState}
    (hP : s.Inv) (h : s.draw g = .ok (x, s')) :
    s'.Inv ∧ x ∈ s.rem ∧ s'.rem = s.rem.erase x := by
  obtain ⟨hlen, hrn⟩ := hP
  by_cases hge : s.numDrawn ≥ s.n
  · rw [FYState.draw_exhausted_fy g hge] at h; cases h
  · have hrem : 0 < s.remaining := by omega
    rw [FYState.draw_ok g hge hrem] at h
    cases h
    set i := g s.pos % s.remaining with hi
    have hilt : i < s.remaining := Nat.mod_lt _ hrem
    have hrl : s.remaining ≤ s.array.length := by omega
    constructor
    · constructor
      · simp [FYState.Inv, hlen]
      · simp only []; omega
    constructor
    · have hmem := @getD_mem ℕ (s.array.take s.remaining) i 0
        (by rw [List.length_take]; exact lt_min hilt (lt_of_lt_of_le hilt hrl))
      rw [getD_take 0 hilt] at hmem
      exact Multiset.mem_coe.mpr hmem
    · exact multiset_take_erase hilt hrl

theorem FYState.draw_count_fy (g : ℕ → ℕ) {s : FYState} {x : ℕ} {s' : FYState}
    (h : s.draw g = .ok (x, s')) :
    s'.numDrawn = s.numDrawn + 1 ∧ s'.n = s.n ∧ s'.remaining = s.remaining - 1 := by
  by_cases hge : s.numDrawn ≥ s.n
  · rw [FYState.draw_exhausted_fy g hge] at h; cases h
  · rw [FYState.draw, if_neg hge] at h; cases h; exact ⟨rfl, rfl, rfl⟩

theorem FYState.reset_Inv_fy (n pos : ℕ) : (FYState.reset n pos).Inv := by
  constructor <;> simp [FYState.reset]

theorem FYState.reset_rem_fy (n pos : ℕ) :
    (FYState.reset n pos).rem = ((List.range n : List ℕ) : Multiset ℕ) := by
  simp [FYState.rem, FYState.reset, List.take_of_length_le (le_of_eq (List.length_range n))]

-- ---------------------------------------------------------------------------
-- BitmapDealer (bitmap.py)
-- ---------------------------------------------------------------------------

/-- State of `BitmapDealer` (fields `_n`, `_num_drawn`, `_available`). -/
structure BMState where
  n : ℕ
  numDrawn : ℕ
  available : List Bool
  pos : ℕ
  deriving Repr

/-- `BitmapDealer.reset(n, np_random)`: availability bitmap of all ones. -/
def BMState.reset (n pos : ℕ) : BMState :=
  { n := n, numDrawn := 0, available := List.replicate n true, pos := pos }

/-- The rejection loop inside `BitmapDealer.draw()`: repeatedly sample
`c ← uniform_int(0, n-1)` until `available[c]`; returns the accepted index
and the advanced rng cursor. -/
def BMState.drawLoop (g : ℕ → ℕ) (n : ℕ) (avail : List Bool) :
    ℕ → ℕ → Except DealerErr (ℕ × ℕ)
  | 0, _ => .error .outOfFuel
  | fuel + 1, pos =>
    let c := uniformInt g pos 0 (n - 1)
    if avail.getD c false then .ok (c, pos + 1)
    else BMState.drawLoop g n avail fuel (pos + 1)

/-- `BitmapDealer.draw()`. -/
def BMState.draw (g : ℕ → ℕ) (fuel : ℕ) (s : BMState) :
    Except DealerErr (ℕ × BMState) :=
  if s.numDrawn ≥ s.n then .error .exhausted
  else
    match BMState.drawLoop g s.n s.available fuel s.pos with
    | .error e => .error e
    | .ok (c, pos') =>
      .ok (c, { n := s.n, numDrawn := s.numDrawn + 1,
                available := s.available.set c false, pos := pos' })

/-- `BitmapDealer.peek_next_distribution()` over `ℚ`. -/
def BMState.peek (s : BMState) : Option (List (ℕ × ℚ)) :=
  let rem := s.n - s.numDrawn
  if rem = 0 then none
  else some (((List.range s.n).filter
    (fun i => s.available.getD i false)).map (fun i => (i, (1 : ℚ) / rem)))

/-- Remaining ids of a `BitmapDealer` state: indices with a set bit. -/
def BMState.rem (s : BMState) : Multiset ℕ :=
  ((List.range s.n).filter (fun i => s.available.getD i false) : List ℕ)

/-- Structural invariant of `BitmapDealer` states. -/
def BMState.Inv (s : BMState) : Prop :=
  s.available.length = s.n ∧ s.numDrawn ≤ s.n ∧
    Multiset.card s.rem = s.n - s.numDrawn

-- getD/set helper lemmas

theorem getD_set_eq {α : Type} {l : List α} {i : ℕ} (x d : α)
    (h : i < l.length) : (l.set i x).getD i d = x := by
  rw [List.getD_eq_getElem?_getD, List.getElem?_set_self' ]
  simp [List.getElem?_eq_getElem h]

theorem getD_set_ne {α : Type} {l : List α} {i j : ℕ} (x d : α)
    (h : i ≠ j) : (l.set i x).getD j d = l.getD j d := by
  rw [List.getD_eq_getElem?_getD, List.getElem?_set_ne h,
    ← List.getD_eq_getElem?_getD]

theorem filter_set_erase {avail : List Bool} {c : ℕ}
    (hc : avail.getD c false = true) :
    ∀ (l : List ℕ), l.Nodup →
      l.filter (fun i => (avail.set c false).getD i false)
        = (l.filter (fun i => avail.getD i false)).erase c := by
  have hcl : c < avail.length := by
    by_contra hge
    rw [List.getD_eq_getElem?_getD, List.getElem?_eq_none (by omega)] at hc
    simp at hc
  intro l
  induction l with
  | nil => intro _; rfl
  | cons a t ih =>
    intro hnd
    obtain ⟨hat, hndt⟩ := List.nodup_cons.mp hnd
    by_cases hac : a = c
    · subst hac
      have h1 : (avail.set a false).getD a false = false :=
        getD_set_eq false false hcl
      simp only [List.filter_cons, h1, hc]
      simp only [Bool.false_eq_true, if_false, if_true]
      rw [List.erase_cons_head]
      apply List.filter_congr
      intro b hb
      have hne : a ≠ b := fun hab => hat (hab ▸ hb)
      rw [getD_set_ne false false hne]
    · have h2 : (avail.set c false).getD a false = avail.getD a false :=
        getD_set_ne false false (fun hca => hac hca.symm)
      simp only [List.filter_cons, h2]
      cases hpa : avail.getD a false with
      | true =>
        simp only [if_true]
        rw [List.erase_cons_tail (by simp [hac]), ih hndt]
      | false =>
        simp only [Bool.false_eq_true, if_false]
        exact ih hndt

theorem BMState.drawLoop_ok {g : ℕ → ℕ} {n : ℕ} {avail : List Bool}
    (hn : 0 < n) :
    ∀ {fuel pos c pos'}, BMState.drawLoop g n avail fuel pos = .ok (c, pos') →
      c < n ∧ avail.getD c false = true := by
  intro fuel
  induction fuel with
  | zero => intro pos c pos' h; cases h
  | succ fuel ih =>
    intro pos c pos' h
    rw [BMState.drawLoop] at h
    by_cases hav : avail.getD (uniformInt g pos 0 (n - 1)) false = true
    · rw [if_pos hav] at h
      cases h
      refine ⟨?_, hav⟩
      have : n - 1 + 1 - 0 = n := by omega
      rw [uniformInt, this]
      simpa using Nat.mod_lt _ hn
    · rw [if_neg hav] at h
      exact ih h

theorem BMState.draw_exhausted_bm (g : ℕ → ℕ) (fuel : ℕ) {s : BMState}
    (h : s.numDrawn ≥ s.n) : s.draw g fuel = .error .exhausted := by
  rw [BMState.draw, if_pos h]

theorem BMState.draw_step_bm (g : ℕ → ℕ) (fuel : ℕ) {s : BMState} {x : ℕ}
    {s' : BMState} (hP : s.Inv) (h : s.draw g fuel = .ok (x, s')) :
    s'.Inv ∧ x ∈ s.rem ∧ s'.rem = s.rem.erase x := by
  obtain ⟨hlen, hnd, hcard⟩ := hP
  by_cases hge : s.numDrawn ≥ s.n
  · rw [BMState.draw_exhausted_bm g fuel hge] at h; cases h
  · rw [BMState.draw, if_neg hge] at h
    have hn : 0 < s.n := by omega
    cases hloop : BMState.drawLoop g s.n s.available fuel s.pos with
    | error e => rw [hloop] at h; cases h
    | ok p =>
      obtain ⟨c, pos'⟩ := p
      rw [hloop] at h
      cases h
      obtain ⟨hcn, hav⟩ := BMState.drawLoop_ok hn hloop
      have hmem : x ∈ s.rem := by
        apply Multiset.mem_coe.mpr
        apply List.mem_filter.mpr
        exact ⟨List.mem_range.mpr hcn, by simpa using hav⟩
      have hrem' : BMState.rem
          { n := s.n, numDrawn := s.numDrawn + 1,
            available := s.available.set x false, pos := pos' }
          = s.rem.erase x := by
        show (((List.range s.n).filter
          (fun i => (s.available.set x false).getD i false) : List ℕ) : Multiset ℕ) = _
        rw [filter_set_erase hav (List.range s.n) (List.nodup_range s.n)]
        exact (Multiset.coe_erase _ _)
      refine ⟨⟨?_, ?_, ?_⟩, hmem, hrem'⟩
      · show (s.available.set x false).length = s.n
        simp [hlen]
      · show s.numDrawn + 1 ≤ s.n
        omega
      · show Multiset.card (BMState.rem _) = s.n - (s.numDrawn + 1)
        rw [hrem', Multiset.card_erase_of_mem hmem, hcard]
        simp only [Nat.pred_eq_sub_one]
        omega

theorem BMState.draw_count_bm (g : ℕ → ℕ) (fuel : ℕ) {s : BMState} {x : ℕ}
    {s' : BMState} (h : s.draw g fuel = .ok (x, s')) :
    s'.numDrawn = s.numDrawn + 1 ∧ s'.n = s.n := by
  by_cases hge : s.numDrawn ≥ s.n
  · rw [BMState.draw_exhausted_bm g fuel hge] at h; cases h
  · rw [BMState.draw, if_neg hge] at h
    cases hloop : BMState.drawLoop g s.n s.available fuel s.pos with
    | error e => rw [hloop] at h; cases h
    | ok p =>
      obtain ⟨c, pos'⟩ := p
      rw [hloop] at h
      cases h
      exact ⟨rfl, rfl⟩

theorem BMState.reset_rem_bm (n pos : ℕ) :
    (BMState.reset n pos).rem = ((List.range n : List ℕ) : Multiset ℕ) := by
  rw [BMState.rem]
  show (((List.range n).filter
    (fun i => (List.replicate n true).getD i false) : List ℕ) : Multiset ℕ) = _
  rw [List.filter_eq_self.mpr ?_]
  intro a ha
  rw [List.getD_eq_getElem?_getD, List.getElem?_replicate]
  simp [List.mem_range.mp ha]

theorem BMState.reset_Inv_bm (n pos : ℕ) : (BMState.reset n pos).Inv := by
  refine ⟨by simp [BMState.reset], by simp [BMState.reset], ?_⟩
  rw [BMState.reset_rem_bm n pos]
  simp [BMState.reset]

-- ---------------------------------------------------------------------------
-- AdaptiveThresholdDealer (adaptive_threshold.py)
-- ---------------------------------------------------------------------------

/-- The mini-deck partition loop inside `AdaptiveThresholdDealer.reset`:
`k` iterations remain, current index `i`, current `offset`; returns
`(sizes, starts)`. -/
def buildPart (baseSize extra : ℕ) : ℕ → ℕ → ℕ → List ℕ × List ℕ
  | 0, _, _ => ([], [])
  | k + 1, i, offset =>
    let sz := baseSize + (if i < extra then 1 else 0)
    let rest := buildPart baseSize extra k (i + 1) (offset + sz)
    (sz :: rest.1, offset :: rest.2)

/-- State of `AdaptiveThresholdDealer` (fields `_n`, `_num_drawn`, `_d`,
`_sizes`, `_starts`, `_ell`, `_t`, `_phase`, `_final_cards`,
`_final_remaining`) plus the rng cursor.  `phaseAdaptive = true` encodes
`_phase == "adaptive"`. -/
structure ATState where
  n : ℕ
  numDrawn : ℕ
  d : ℕ
  sizes : List ℕ
  starts : List ℕ
  ell : List ℕ
  t : ℕ
  phaseAdaptive : Bool
  finalCards : List ℕ
  finalRemaining : ℕ
  pos : ℕ
  deriving Repr

/-- `AdaptiveThresholdDealer.reset(n, np_random, m_bits=…)`. -/
def ATState.reset (n pos mBits : ℕ) : ATState :=
  let d0 := max 1 (mBits / 8)
  let d := if d0 > n / 2 then max 1 (n / 2) else d0
  let part := buildPart (n / d) (n % d) d 0 0
  { n := n, numDrawn := 0, d := d, sizes := part.1, starts := part.2
    ell := List.replicate d 0, t := 0, phaseAdaptive := true
    finalCards := [], finalRemaining := 0, pos := pos }

/-- `AdaptiveThresholdDealer._current_threshold()`: `⌈t/d⌉ + 1`, or 1 at
`t = 0`. -/
def ATState.currentThreshold (s : ATState) : ℕ :=
  if s.t = 0 then 1 else (s.t + s.d - 1) / s.d + 1

/-- `AdaptiveThresholdDealer._top_card(i)`. -/
def ATState.topCard (s : ATState) (i : ℕ) : ℕ :=
  s.starts.getD i 0 + s.ell.getD i 0

/-- `AdaptiveThresholdDealer._get_drawable_indices()`. -/
def ATState.drawableIndices (s : ATState) : List ℕ :=
  (List.range s.d).filter
    (fun i => decide (s.ell.getD i 0 < s.currentThreshold ∧
      s.ell.getD i 0 < s.sizes.getD i 0))

/-- The rejection loop inside `_draw_adaptive`: repeatedly sample
`i ← uniform_int(0, d-1)` until mini-deck `i` is drawable at `threshold`;
returns the accepted index and the advanced rng cursor. -/
def ATState.rejLoop (g : ℕ → ℕ) (d threshold : ℕ) (ell sizes : List ℕ) :
    ℕ → ℕ → Except DealerErr (ℕ × ℕ)
  | 0, _ => .error .outOfFuel
  | fuel + 1, pos =>
    let i := uniformInt g pos 0 (d - 1)
    if ell.getD i 0 < threshold ∧ ell.getD i 0 < sizes.getD i 0 then
      .ok (i, pos + 1)
    else ATState.rejLoop g d threshold ell sizes fuel (pos + 1)

/-- `AdaptiveThresholdDealer._transition_to_final()`: flatten the
remaining top slices `starts[i]+ell[i] … starts[i]+sizes[i]-1`. -/
def ATState.transitionToFinal (s : ATState) : ATState :=
  let tail := (List.range s.d).flatMap (fun i =>
    List.range' (s.starts.getD i 0 + s.ell.getD i 0)
      (s.sizes.getD i 0 - s.ell.getD i 0))
  { s with phaseAdaptive := false, finalCards := tail,
           finalRemaining := tail.length }

/-- `AdaptiveThresholdDealer._draw_final()`: swap-delete from the tail. -/
def ATState.drawFinal (g : ℕ → ℕ) (s : ATState) :
    Except DealerErr (ℕ × ATState) :=
  if s.finalRemaining = 0 then .error .finalEmpty
  else
    let i := uniformInt g s.pos 0 (s.finalRemaining - 1)
    let out := s.finalCards.getD i 0
    .ok (out,
      { s with
        finalCards := s.finalCards.set i
          (s.finalCards.getD (s.finalRemaining - 1) 0)
        finalRemaining := s.finalRemaining - 1
        numDrawn := s.numDrawn + 1
        pos := s.pos + 1 })

/-- `AdaptiveThresholdDealer._draw_adaptive()`: increment `t`; on
`t > n - 2d` transition and draw from the tail, otherwise run the
rejection loop (`n - 2d` is computed in `ℤ` as in Python). -/
def ATState.drawAdaptive (g : ℕ → ℕ) (fuel : ℕ) (s : ATState) :
    Except DealerErr (ℕ × ATState) :=
  let s1 : ATState := { s with t := s.t + 1 }
  if (s1.t : ℤ) > (s1.n : ℤ) - 2 * (s1.d : ℤ) then
    ATState.drawFinal g s1.transitionToFinal
  else
    let threshold := s1.currentThreshold
    match ATState.rejLoop g s1.d threshold s1.ell s1.sizes fuel s1.pos with
    | .error e => .error e
    | .ok (i, pos') =>
      .ok (s1.topCard i,
        { s1 with
          ell := s1.ell.set i (s1.ell.getD i 0 + 1)
          numDrawn := s1.numDrawn + 1
          pos := pos' })

/-- `AdaptiveThresholdDealer.draw()`. -/
def ATState.draw (g : ℕ → ℕ) (fuel : ℕ) (s : ATState) :
    Except DealerErr (ℕ × ATState) :=
  if s.numDrawn ≥ s.n then .error .exhausted
  else if s.phaseAdaptive then s.drawAdaptive g fuel
  else s.drawFinal g

/-- `AdaptiveThresholdDealer.peek_next_distribution()` over `ℚ`. -/
def ATState.peek (s : ATState) : Option (List (ℕ × ℚ)) :=
  if s.n - s.numDrawn = 0 then none
  else if s.phaseAdaptive = false then
    if s.finalRemaining = 0 then none
    else some ((s.finalCards.take s.finalRemaining).map
      (fun c => (c, (1 : ℚ) / s.finalRemaining)))
  else
    let drawable := s.drawableIndices
    if drawable.isEmpty then none
    else some (drawable.map
      (fun i => (s.topCard i, (1 : ℚ) / drawable.length)))

/-- Remaining ids of an `AdaptiveThresholdDealer` state. -/
def ATState.rem (s : ATState) : Multiset ℕ :=
  if s.phaseAdaptive then
    ∑ i ∈ Finset.range s.d,
      ((List.range' (s.starts.getD i 0 + s.ell.getD i 0)
        (s.sizes.getD i 0 - s.ell.getD i 0) : List ℕ) : Multiset ℕ)
  else ((s.finalCards.take s.finalRemaining : List ℕ) : Multiset ℕ)

/-- Invariant of adaptive-phase states. -/
def ATState.AInv (s : ATState) : Prop :=
  1 ≤ s.d ∧ s.sizes.length = s.d ∧ s.starts.length = s.d ∧
  s.ell.length = s.d ∧
  (∀ i, i < s.d → s.ell.getD i 0 ≤ s.sizes.getD i 0) ∧
  (∀ i, i < s.d → s.n / s.d ≤ s.sizes.getD i 0) ∧
  (∑ i ∈ Finset.range s.d, s.sizes.getD i 0) = s.n ∧
  (∀ i, i < s.d → s.starts.getD i 0 = ∑ q ∈ Finset.range i, s.sizes.getD q 0) ∧
  (∑ i ∈ Finset.range s.d, s.ell.getD i 0) = s.numDrawn ∧
  s.t = s.numDrawn ∧
  (s.numDrawn = 0 ∨ s.numDrawn + 2 * s.d ≤ s.n)

/-- Invariant of final-phase states. -/
def ATState.FInv (s : ATState) : Prop :=
  s.finalRemaining + s.numDrawn = s.n ∧
  s.finalRemaining ≤ s.finalCards.length

/-- Structural invariant of `AdaptiveThresholdDealer` states. -/
def ATState.Inv (s : ATState) : Prop :=
  (s.phaseAdaptive = true → s.AInv) ∧ (s.phaseAdaptive = false → s.FInv)

-- buildPart closed forms

theorem buildPart_fst_length (b e : ℕ) :
    ∀ k i off, (buildPart b e k i off).1.length = k := by
  intro k
  induction k with
  | zero => intro i off; rfl
  | succ k ih => intro i off; simp [buildPart, ih]

theorem buildPart_snd_length (b e : ℕ) :
    ∀ k i off, (buildPart b e k i off).2.length = k := by
  intro k
  induction k with
  | zero => intro i off; rfl
  | succ k ih => intro i off; simp [buildPart, ih]

theorem buildPart_fst_getD (b e : ℕ) :
    ∀ k i off j, j < k →
      (buildPart b e k i off).1.getD j 0 = b + (if i + j < e then 1 else 0) := by
  intro k
  induction k with
  | zero => intro i off j hj; omega
  | succ k ih =>
    intro i off j hj
    match j with
    | 0 => simp [buildPart]
    | j + 1 =>
      show (buildPart b e k (i + 1) _).1.getD j 0 = _
      rw [ih (i + 1) _ j (by omega)]
      have : i + 1 + j = i + (j + 1) := by omega
      rw [this]

theorem buildPart_snd_getD (b e : ℕ) :
    ∀ k i off j, j < k →
      (buildPart b e k i off).2.getD j 0
        = off + ∑ q ∈ Finset.range j, (b + if i + q < e then 1 else 0) := by
  intro k
  induction k with
  | zero => intro i off j hj; omega
  | succ k ih =>
    intro i off j hj
    match j with
    | 0 => simp [buildPart]
    | j + 1 =>
      show (buildPart b e k (i + 1) _).2.getD j 0 = _
      rw [ih (i + 1) _ j (by omega)]
      rw [Finset.sum_range_succ']
      have hcongr : ∀ q, b + (if i + 1 + q < e then 1 else 0)
          = b + (if i + (q + 1) < e then 1 else 0) := by
        intro q
        have h : i + 1 + q = i + (q + 1) := by omega
        rw [h]
      rw [Finset.sum_congr rfl (fun q _ => hcongr q)]
      have : i + 0 = i := rfl
      simp only [this]
      omega

theorem sum_ite_lt (e : ℕ) :
    ∀ d, (∑ j ∈ Finset.range d, (if j < e then 1 else 0)) = min e d := by
  intro d
  induction d with
  | zero => simp
  | succ d ih =>
    rw [Finset.sum_range_succ, ih]
    by_cases h : d < e
    · rw [if_pos h]; omega
    · rw [if_neg h]; omega

-- The key counting lemma: some mini-deck is always drawable.

theorem drawable_aux {d n u θ : ℕ} (sizes ell : ℕ → ℕ)
    (hd : 1 ≤ d)
    (hsz : ∀ i, i < d → n / d ≤ sizes i)
    (hle : ∀ i, i < d → ell i ≤ sizes i)
    (hu : ∑ i ∈ Finset.range d, ell i = u)
    (hub : u + 2 * d ≤ n)
    (hθ : u / d + 1 ≤ θ) :
    ∃ i, i < d ∧ ell i < θ ∧ ell i < sizes i := by
  by_contra hcon
  push_neg at hcon
  have hlow : ∀ i ∈ Finset.range d, min θ (n / d) ≤ ell i := by
    intro i hi
    have hi' := Finset.mem_range.mp hi
    rcases Nat.lt_or_ge (ell i) θ with h | h
    · have := hcon i hi' h
      have := hle i hi'
      have := hsz i hi'
      omega
    · omega
  have hsum : d * min θ (n / d) ≤ u := by
    have := Finset.card_nsmul_le_sum (Finset.range d)
      ell (min θ (n / d)) hlow
    rwa [Finset.card_range, smul_eq_mul, hu] at this
  rcases le_or_lt θ (n / d) with hmin | hmin
  · rw [min_eq_left hmin] at hsum
    have h1 : d * (u / d) + u % d = u := Nat.div_add_mod u d
    have h2 : u % d < d := Nat.mod_lt _ hd
    have h3 : d * (u / d + 1) ≤ d * θ := Nat.mul_le_mul_left d hθ
    have h4 : d * (u / d + 1) = d * (u / d) + d := by ring
    omega
  · rw [min_eq_right (le_of_lt hmin)] at hsum
    have h1 : d * (n / d) + n % d = n := Nat.div_add_mod n d
    have h2 : n % d < d := Nat.mod_lt _ hd
    omega

theorem ATState.rejLoop_ok {g : ℕ → ℕ} {d threshold : ℕ} {ell sizes : List ℕ}
    (hd : 0 < d) :
    ∀ {fuel pos i pos'},
      ATState.rejLoop g d threshold ell sizes fuel pos = .ok (i, pos') →
      i < d ∧ ell.getD i 0 < threshold ∧ ell.getD i 0 < sizes.getD i 0 := by
  intro fuel
  induction fuel with
  | zero => intro pos i pos' h; cases h
  | succ fuel ih =>
    intro pos i pos' h
    rw [ATState.rejLoop] at h
    split at h
    · rename_i hacc
      cases h
      refine ⟨?_, hacc⟩
      have hd1 : d - 1 + 1 - 0 = d := by omega
      rw [uniformInt, hd1]
      simpa using Nat.mod_lt _ hd
    · exact ih h

theorem ATState.drawFinal_step (g : ℕ → ℕ) {s : ATState} {x : ℕ}
    {s' : ATState} (hphase : s.phaseAdaptive = false) (hF : s.FInv)
    (hlt : s.numDrawn < s.n) (h : s.drawFinal g = .ok (x, s')) :
    s'.phaseAdaptive = false ∧ s'.FInv ∧ x ∈ s.rem ∧ s'.rem = s.rem.erase x := by
  obtain ⟨hfr, hfl⟩ := hF
  have hfr0 : 0 < s.finalRemaining := by omega
  rw [ATState.drawFinal, if_neg (by omega)] at h
  have hu : uniformInt g s.pos 0 (s.finalRemaining - 1)
      = g s.pos % s.finalRemaining := by
    rw [uniformInt]
    have : s.finalRemaining - 1 + 1 - 0 = s.finalRemaining := by omega
    rw [this]
    omega
  rw [hu] at h
  cases h
  set i := g s.pos % s.finalRemaining with hi
  have hilt : i < s.finalRemaining := Nat.mod_lt _ hfr0
  have hrl : s.finalRemaining ≤ s.finalCards.length := hfl
  have hrem_s : s.rem
      = ((s.finalCards.take s.finalRemaining : List ℕ) : Multiset ℕ) := by
    rw [ATState.rem, hphase]; rfl
  refine ⟨hphase, ⟨by simp; omega, by simp [List.length_set]; omega⟩, ?_, ?_⟩
  · rw [hrem_s]
    have hmem := @getD_mem ℕ (s.finalCards.take s.finalRemaining) i 0
      (by rw [List.length_take]; exact lt_min hilt (lt_of_lt_of_le hilt hrl))
    rw [getD_take 0 hilt] at hmem
    exact Multiset.mem_coe.mpr hmem
  · have : ATState.rem
        { s with
          finalCards := s.finalCards.set i
            (s.finalCards.getD (s.finalRemaining - 1) 0)
          finalRemaining := s.finalRemaining - 1
          numDrawn := s.numDrawn + 1
          pos := s.pos + 1 }
        = (((s.finalCards.set i (s.finalCards.getD (s.finalRemaining - 1) 0)).take
            (s.finalRemaining - 1) : List ℕ) : Multiset ℕ) := by
      rw [ATState.rem]
      simp only [hphase]
      rfl
    rw [this, hrem_s]
    exact multiset_take_erase hilt hrl

theorem flatMap_range_coe (f : ℕ → List ℕ) :
    ∀ d : ℕ, (((List.range d).flatMap f : List ℕ) : Multiset ℕ)
      = ∑ i ∈ Finset.range d, ((f i : List ℕ) : Multiset ℕ) := by
  intro d
  induction d with
  | zero => simp
  | succ d ih =>
    rw [List.range_succ, List.flatMap_append, ← Multiset.coe_add, ih,
      Finset.sum_range_succ]
    simp

theorem flatMap_range_length (f : ℕ → List ℕ) :
    ∀ d : ℕ,
      ((List.range d).flatMap f).length = ∑ i ∈ Finset.range d, (f i).length := by
  intro d
  induction d with
  | zero => simp
  | succ d ih =>
    rw [List.range_succ, List.flatMap_append, List.length_append, ih,
      Finset.sum_range_succ]
    simp

theorem ATState.transition_spec {s : ATState} (hphase : s.phaseAdaptive = true)
    (hle : ∀ i, i < s.d → s.ell.getD i 0 ≤ s.sizes.getD i 0)
    (hsum : (∑ i ∈ Finset.range s.d, s.sizes.getD i 0) = s.n)
    (hells : (∑ i ∈ Finset.range s.d, s.ell.getD i 0) = s.numDrawn)
    (hnd : s.numDrawn ≤ s.n) :
    s.transitionToFinal.phaseAdaptive = false ∧ s.transitionToFinal.FInv ∧
    s.transitionToFinal.rem = s.rem ∧
    s.transitionToFinal.numDrawn = s.numDrawn ∧
    s.transitionToFinal.n = s.n := by
  set f : ℕ → List ℕ := fun i =>
    List.range' (s.starts.getD i 0 + s.ell.getD i 0)
      (s.sizes.getD i 0 - s.ell.getD i 0) with hf
  have hlen : ((List.range s.d).flatMap f).length = s.n - s.numDrawn := by
    rw [flatMap_range_length]
    have hpt : ∀ i ∈ Finset.range s.d, (f i).length
        = s.sizes.getD i 0 - s.ell.getD i 0 := by
      intro i _
      rw [hf]
      simp [List.length_range']
    rw [Finset.sum_congr rfl hpt]
    have hcomp : ∀ i ∈ Finset.range s.d,
        (s.sizes.getD i 0 - s.ell.getD i 0) + s.ell.getD i 0
          = s.sizes.getD i 0 := by
      intro i hi
      have := hle i (Finset.mem_range.mp hi)
      omega
    have := Finset.sum_congr rfl hcomp
    rw [Finset.sum_add_distrib] at this
    omega
  refine ⟨rfl, ⟨?_, ?_⟩, ?_, rfl, rfl⟩
  · show ((List.range s.d).flatMap f).length + s.numDrawn = s.n
    omega
  · show ((List.range s.d).flatMap f).length ≤ ((List.range s.d).flatMap f).length
    exact le_refl _
  · have hphase' : s.transitionToFinal.phaseAdaptive = false := rfl
    rw [ATState.rem, if_neg (by rw [hphase']; simp)]
    show ((((List.range s.d).flatMap f).take
      ((List.range s.d).flatMap f).length : List ℕ) : Multiset ℕ) = s.rem
    rw [List.take_length, flatMap_range_coe, ATState.rem, if_pos hphase]

theorem ATState.rem_adaptive {s : ATState} (h : s.phaseAdaptive = true) :
    s.rem = ∑ i ∈ Finset.range s.d,
      ((List.range' (s.starts.getD i 0 + s.ell.getD i 0)
        (s.sizes.getD i 0 - s.ell.getD i 0) : List ℕ) : Multiset ℕ) := by
  rw [ATState.rem, if_pos h]

theorem ATState.drawAdaptive_eq (g : ℕ → ℕ) (fuel : ℕ) (s : ATState) :
    s.drawAdaptive g fuel =
      if ((s.t + 1 : ℕ) : ℤ) > (s.n : ℤ) - 2 * (s.d : ℤ) then
        ATState.drawFinal g ({ s with t := s.t + 1 } : ATState).transitionToFinal
      else
        match ATState.rejLoop g s.d
            (if s.t + 1 = 0 then 1 else (s.t + 1 + s.d - 1) / s.d + 1)
            s.ell s.sizes fuel s.pos with
        | .error e => .error e
        | .ok (i, pos') =>
          .ok (s.starts.getD i 0 + s.ell.getD i 0,
            { s with
              t := s.t + 1
              ell := s.ell.set i (s.ell.getD i 0 + 1)
              numDrawn := s.numDrawn + 1
              pos := pos' }) := rfl

theorem ATState.draw_step_at (g : ℕ → ℕ) (fuel : ℕ) {s : ATState} {x : ℕ}
    {s' : ATState} (hInv : s.Inv) (h : s.draw g fuel = .ok (x, s')) :
    s'.Inv ∧ x ∈ s.rem ∧ s'.rem = s.rem.erase x := by
  obtain ⟨hAi, hFi⟩ := hInv
  by_cases hge : s.numDrawn ≥ s.n
  · rw [ATState.draw, if_pos hge] at h; cases h
  · rw [ATState.draw, if_neg hge] at h
    cases hph : s.phaseAdaptive with
    | false =>
      rw [hph] at h
      simp only [Bool.false_eq_true, if_false] at h
      obtain ⟨hp', hF', hmem, herase⟩ :=
        ATState.drawFinal_step g hph (hFi hph) (by omega) h
      refine ⟨⟨fun hc => absurd (hp' ▸ hc) (by simp), fun _ => hF'⟩, hmem, herase⟩
    | true =>
      rw [hph] at h
      simp only [if_true] at h
      rw [ATState.drawAdaptive_eq] at h
      obtain ⟨hd, hszl, hstl, helll, hle, hsz, hsum, hst, hells, ht, hbound⟩ :=
        hAi hph
      by_cases htr : ((s.t + 1 : ℕ) : ℤ) > (s.n : ℤ) - 2 * (s.d : ℤ)
      · rw [if_pos htr] at h
        set s2 : ATState := { s with t := s.t + 1 } with hs2
        have hph2 : s2.phaseAdaptive = true := hph
        obtain ⟨htp, htF, htrem, htnd, htn⟩ :=
          ATState.transition_spec (s := s2) hph2 hle hsum hells
            (Nat.le_of_lt (Nat.lt_of_not_le hge))
        have hlt2 : s2.transitionToFinal.numDrawn < s2.transitionToFinal.n := by
          rw [htnd, htn]; exact Nat.lt_of_not_le hge
        obtain ⟨hp', hF', hmem, herase⟩ :=
          ATState.drawFinal_step g htp htF hlt2 h
        have hrem2 : s2.rem = s.rem := rfl
        rw [htrem, hrem2] at hmem herase
        refine ⟨⟨fun hc => absurd (hp' ▸ hc) (by simp), fun _ => hF'⟩,
          hmem, herase⟩
      · rw [if_neg htr] at h
        split at h
        · cases h
        · rename_i p i0 pos' hloop
          cases h
          obtain ⟨hi0d, hacc1, hacc2⟩ := ATState.rejLoop_ok hd hloop
          set x0 := s.starts.getD i0 0 + s.ell.getD i0 0 with hx0
          set C : ℕ → Multiset ℕ := fun i =>
            ((List.range' (s.starts.getD i 0 + s.ell.getD i 0)
              (s.sizes.getD i 0 - s.ell.getD i 0) : List ℕ) : Multiset ℕ) with hC
          set ell' : List ℕ := s.ell.set i0 (s.ell.getD i0 0 + 1) with hell'
          set C' : ℕ → Multiset ℕ := fun i =>
            ((List.range' (s.starts.getD i 0 + ell'.getD i 0)
              (s.sizes.getD i 0 - ell'.getD i 0) : List ℕ) : Multiset ℕ) with hC'
          have hi0l : i0 < s.ell.length := by rw [helll]; exact hi0d
          have hell'i0 : ell'.getD i0 0 = s.ell.getD i0 0 + 1 :=
            getD_set_eq _ _ hi0l
          have hell'ne : ∀ i, i ≠ i0 → ell'.getD i 0 = s.ell.getD i 0 := by
            intro i hne
            exact getD_set_ne _ _ (fun hc => hne hc.symm)
          have hC'i0 : C' i0
              = ((List.range' (x0 + 1)
                  (s.sizes.getD i0 0 - s.ell.getD i0 0 - 1) : List ℕ) : Multiset ℕ) := by
            show ((List.range' (s.starts.getD i0 0 + ell'.getD i0 0)
              (s.sizes.getD i0 0 - ell'.getD i0 0) : List ℕ) : Multiset ℕ) = _
            rw [hell'i0]
            have h1 : s.starts.getD i0 0 + (s.ell.getD i0 0 + 1) = x0 + 1 := by
              omega
            have h2 : s.sizes.getD i0 0 - (s.ell.getD i0 0 + 1)
                = s.sizes.getD i0 0 - s.ell.getD i0 0 - 1 := by omega
            rw [h1, h2]
          have hCi0 : C i0 = x0 ::ₘ C' i0 := by
            rw [hC'i0]
            show ((List.range' (s.starts.getD i0 0 + s.ell.getD i0 0)
              (s.sizes.getD i0 0 - s.ell.getD i0 0) : List ℕ) : Multiset ℕ) = _
            have hk : s.sizes.getD i0 0 - s.ell.getD i0 0
                = (s.sizes.getD i0 0 - s.ell.getD i0 0 - 1) + 1 := by omega
            rw [hk, List.range'_succ, ← Multiset.cons_coe]
            rfl
          have hmem0 : i0 ∈ Finset.range s.d := Finset.mem_range.mpr hi0d
          have hrem_s : s.rem = ∑ i ∈ Finset.range s.d, C i :=
            ATState.rem_adaptive hph
          have hsplit : s.rem = C i0 + ∑ i ∈ (Finset.range s.d).erase i0, C i := by
            rw [hrem_s, Finset.add_sum_erase _ C hmem0]
          have hCeq : ∀ i ∈ (Finset.range s.d).erase i0, C' i = C i := by
            intro i hi
            have hne : i ≠ i0 := Finset.ne_of_mem_erase hi
            show ((List.range' (s.starts.getD i 0 + ell'.getD i 0)
              (s.sizes.getD i 0 - ell'.getD i 0) : List ℕ) : Multiset ℕ)
              = ((List.range' (s.starts.getD i 0 + s.ell.getD i 0)
                (s.sizes.getD i 0 - s.ell.getD i 0) : List ℕ) : Multiset ℕ)
            rw [hell'ne i hne]
          have hrem_s' : ATState.rem
              { s with
                t := s.t + 1
                ell := ell'
                numDrawn := s.numDrawn + 1
                pos := pos' }
              = C' i0 + ∑ i ∈ (Finset.range s.d).erase i0, C i := by
            rw [ATState.rem_adaptive (by exact hph)]
            show (∑ i ∈ Finset.range s.d, C' i) = _
            rw [← Finset.add_sum_erase _ C' hmem0,
              Finset.sum_congr rfl hCeq]
          have hxmem : x0 ∈ s.rem := by
            rw [hsplit, hCi0]
            exact Multiset.mem_add.mpr (Or.inl (Multiset.mem_cons_self _ _))
          have herase : ATState.rem
              { s with
                t := s.t + 1
                ell := ell'
                numDrawn := s.numDrawn + 1
                pos := pos' }
              = s.rem.erase x0 := by
            rw [hrem_s', hsplit, hCi0,
              Multiset.erase_add_left_pos _ (Multiset.mem_cons_self _ _),
              Multiset.erase_cons_head]
          refine ⟨⟨fun _ => ?_, fun hc => absurd (hph ▸ hc) (by simp)⟩,
            hxmem, herase⟩
          -- AInv of the new state
          refine ⟨hd, hszl, hstl, ?_, ?_, hsz, hsum, hst, ?_, ?_, ?_⟩
          · show ell'.length = s.d
            rw [hell', List.length_set, helll]
          · show ∀ i, i < s.d → ell'.getD i 0 ≤ s.sizes.getD i 0
            intro i hi
            by_cases hii : i = i0
            · subst hii; rw [hell'i0]; omega
            · rw [hell'ne i hii]; exact hle i hi
          · show (∑ i ∈ Finset.range s.d, ell'.getD i 0) = s.numDrawn + 1
            rw [← Finset.add_sum_erase _ _ hmem0, hell'i0,
              Finset.sum_congr rfl
                (fun i hi => hell'ne i (Finset.ne_of_mem_erase hi))]
            rw [← hells, ← Finset.add_sum_erase _ _ hmem0]
            omega
          · show s.t + 1 = s.numDrawn + 1
            omega
          · show s.numDrawn + 1 = 0 ∨ (s.numDrawn + 1) + 2 * s.d ≤ s.n
            right
            have : ((s.t + 1 : ℕ) : ℤ) ≤ (s.n : ℤ) - 2 * (s.d : ℤ) := by omega
            omega

theorem ATState.drawFinal_count (g : ℕ → ℕ) {s : ATState} {x : ℕ}
    {s' : ATState} (h : s.drawFinal g = .ok (x, s')) :
    s'.numDrawn = s.numDrawn + 1 ∧ s'.n = s.n := by
  rw [ATState.drawFinal] at h
  split at h
  · cases h
  · cases h; exact ⟨rfl, rfl⟩

theorem ATState.draw_count_at (g : ℕ → ℕ) (fuel : ℕ) {s : ATState} {x : ℕ}
    {s' : ATState} (h : s.draw g fuel = .ok (x, s')) :
    s'.numDrawn = s.numDrawn + 1 ∧ s'.n = s.n := by
  by_cases hge : s.numDrawn ≥ s.n
  · rw [ATState.draw, if_pos hge] at h; cases h
  · rw [ATState.draw, if_neg hge] at h
    cases hph : s.phaseAdaptive with
    | false =>
      rw [hph] at h
      simp only [Bool.false_eq_true, if_false] at h
      exact ATState.drawFinal_count g h
    | true =>
      rw [hph] at h
      simp only [if_true] at h
      rw [ATState.drawAdaptive_eq] at h
      split at h
      · have hc := ATState.drawFinal_count g h
        exact hc
      · split at h
        · cases h
        · cases h; exact ⟨rfl, rfl⟩

theorem getD_replicate_zero {d i : ℕ} : (List.replicate d (0 : ℕ)).getD i 0 = 0 := by
  rw [List.getD_eq_getElem?_getD, List.getElem?_replicate]
  split <;> rfl

theorem sum_range'_prefix (sz : ℕ → ℕ) :
    ∀ m : ℕ,
      (∑ i ∈ Finset.range m,
        ((List.range' (∑ q ∈ Finset.range i, sz q) (sz i) : List ℕ) : Multiset ℕ))
      = ((List.range' 0 (∑ q ∈ Finset.range m, sz q) : List ℕ) : Multiset ℕ) := by
  intro m
  induction m with
  | zero => simp
  | succ m ih =>
    rw [Finset.sum_range_succ, ih, Multiset.coe_add, Finset.sum_range_succ]
    have : List.range' 0 (∑ q ∈ Finset.range m, sz q)
        ++ List.range' (∑ q ∈ Finset.range m, sz q) (sz m)
        = List.range' 0 (∑ q ∈ Finset.range m, sz q + sz m) := by
      have h1 := List.range'_append_1 0 (∑ q ∈ Finset.range m, sz q) (sz m)
      rw [Nat.zero_add] at h1
      rw [h1, Nat.add_comm]
    rw [this]

theorem AInv_of_partition (n pos : ℕ) (d : ℕ) (hd : 1 ≤ d) :
    (ATState.mk n 0 d (buildPart (n / d) (n % d) d 0 0).1
      (buildPart (n / d) (n % d) d 0 0).2 (List.replicate d 0) 0 true [] 0
      pos).AInv := by
  have hmod : n % d < d := Nat.mod_lt _ hd
  have hgetsz : ∀ i, i < d → (buildPart (n / d) (n % d) d 0 0).1.getD i 0
      = n / d + (if i < n % d then 1 else 0) := by
    intro i hi
    rw [buildPart_fst_getD _ _ d 0 0 i hi]
    simp
  refine ⟨hd, buildPart_fst_length _ _ d 0 0, buildPart_snd_length _ _ d 0 0,
    List.length_replicate _ _, ?_, ?_, ?_, ?_, ?_, rfl, Or.inl rfl⟩
  · intro i _
    rw [getD_replicate_zero]
    exact Nat.zero_le _
  · intro i hi
    rw [hgetsz i hi]
    exact Nat.le_add_right _ _
  · show (∑ i ∈ Finset.range d, (buildPart (n / d) (n % d) d 0 0).1.getD i 0) = n
    rw [Finset.sum_congr rfl (fun i hi => hgetsz i (Finset.mem_range.mp hi)),
      Finset.sum_add_distrib, Finset.sum_const, Finset.card_range,
      smul_eq_mul, sum_ite_lt]
    have h1 := Nat.div_add_mod n d
    have h2 : min (n % d) d = n % d := by omega
    omega
  · intro i hi
    show (buildPart (n / d) (n % d) d 0 0).2.getD i 0
        = ∑ q ∈ Finset.range i, (buildPart (n / d) (n % d) d 0 0).1.getD q 0
    rw [buildPart_snd_getD _ _ d 0 0 i hi]
    simp only [Nat.zero_add]
    exact Finset.sum_congr rfl
      (fun q hq => (hgetsz q (lt_trans (Finset.mem_range.mp hq) hi)).symm)
  · show (∑ i ∈ Finset.range d, (List.replicate d (0 : ℕ)).getD i 0) = 0
    rw [Finset.sum_congr rfl
      (fun i _ => (getD_replicate_zero (d := d) (i := i)))]
    simp

theorem ATState.reset_AInv (n pos mBits : ℕ) :
    (ATState.reset n pos mBits).AInv := by
  have hd : 1 ≤ (if max 1 (mBits / 8) > n / 2 then max 1 (n / 2)
      else max 1 (mBits / 8)) := by
    split <;> omega
  exact AInv_of_partition n pos _ hd

theorem ATState.reset_Inv_at (n pos mBits : ℕ) :
    (ATState.reset n pos mBits).Inv := by
  refine ⟨fun _ => ATState.reset_AInv n pos mBits, fun hc => ?_⟩
  exact absurd hc (by simp [ATState.reset])

theorem ATState.reset_rem_at (n pos mBits : ℕ) :
    (ATState.reset n pos mBits).rem = ((List.range n : List ℕ) : Multiset ℕ) := by
  obtain ⟨hd, hszl, hstl, helll, hle, hsz, hsum, hst, hells, ht, hbound⟩ :=
    ATState.reset_AInv n pos mBits
  set s := ATState.reset n pos mBits with hs
  rw [ATState.rem_adaptive (by rw [hs]; rfl)]
  have hcongr : ∀ i ∈ Finset.range s.d,
      ((List.range' (s.starts.getD i 0 + s.ell.getD i 0)
        (s.sizes.getD i 0 - s.ell.getD i 0) : List ℕ) : Multiset ℕ)
      = ((List.range' (∑ q ∈ Finset.range i, s.sizes.getD q 0)
          (s.sizes.getD i 0) : List ℕ) : Multiset ℕ) := by
    intro i hi
    have hi' := Finset.mem_range.mp hi
    have hell0 : s.ell.getD i 0 = 0 := by
      rw [hs]
      exact getD_replicate_zero
    rw [hell0, hst i hi', Nat.add_zero, Nat.sub_zero]
  have hn : s.n = n := by rw [hs]; rfl
  rw [Finset.sum_congr rfl hcongr,
    sum_range'_prefix (fun q => s.sizes.getD q 0) s.d, hsum, hn,
    ← List.range_eq_range']

-- ---------------------------------------------------------------------------
-- Reachable states
-- ---------------------------------------------------------------------------

/-- States of `FisherYatesDealer` reachable by `reset` and successful
draws. -/
inductive FYReach (g : ℕ → ℕ) : FYState → Prop where
  | reset (n pos : ℕ) : FYReach g (FYState.reset n pos)
  | draw {s s' : FYState} {x : ℕ} :
      FYReach g s → s.draw g = .ok (x, s') → FYReach g s'

/-- States of `BitmapDealer` reachable by `reset` and successful draws. -/
inductive BMReach (g : ℕ → ℕ) : BMState → Prop where
  | reset (n pos : ℕ) : BMReach g (BMState.reset n pos)
  | draw {s s' : BMState} {x fuel : ℕ} :
      BMReach g s → s.draw g fuel = .ok (x, s') → BMReach g s'

/-- States of `AdaptiveThresholdDealer` reachable by `reset` and
successful draws. -/
inductive ATReach (g : ℕ → ℕ) : ATState → Prop where
  | reset (n pos mBits : ℕ) : ATReach g (ATState.reset n pos mBits)
  | draw {s s' : ATState} {x fuel : ℕ} :
      ATReach g s → s.draw g fuel = .ok (x, s') → ATReach g s'

theorem FYReach_inv {g : ℕ → ℕ} {s : FYState} (h : FYReach g s) :
    s.Inv ∧ s.rem.Nodup := by
  induction h with
  | reset n pos =>
    refine ⟨FYState.reset_Inv_fy n pos, ?_⟩
    rw [FYState.reset_rem_fy]
    exact Multiset.coe_nodup.mpr (List.nodup_range n)
  | draw hr hok ih =>
    obtain ⟨hInv, hnd⟩ := ih
    obtain ⟨hInv', _, herase⟩ := FYState.draw_step_fy _ hInv hok
    refine ⟨hInv', ?_⟩
    rw [herase]
    exact Multiset.nodup_of_le (Multiset.erase_le _ _) hnd

theorem BMReach_inv {g : ℕ → ℕ} {s : BMState} (h : BMReach g s) :
    s.Inv ∧ s.rem.Nodup := by
  induction h with
  | reset n pos =>
    refine ⟨BMState.reset_Inv_bm n pos, ?_⟩
    rw [BMState.reset_rem_bm]
    exact Multiset.coe_nodup.mpr (List.nodup_range n)
  | draw hr hok ih =>
    obtain ⟨hInv, hnd⟩ := ih
    obtain ⟨hInv', _, herase⟩ := BMState.draw_step_bm _ _ hInv hok
    refine ⟨hInv', ?_⟩
    rw [herase]
    exact Multiset.nodup_of_le (Multiset.erase_le _ _) hnd

theorem ATReach_inv {g : ℕ → ℕ} {s : ATState} (h : ATReach g s) :
    s.Inv ∧ s.rem.Nodup := by
  induction h with
  | reset n pos mBits =>
    refine ⟨ATState.reset_Inv_at n pos mBits, ?_⟩
    rw [ATState.reset_rem_at]
    exact Multiset.coe_nodup.mpr (List.nodup_range n)
  | draw hr hok ih =>
    obtain ⟨hInv, hnd⟩ := ih
    obtain ⟨hInv', _, herase⟩ := ATState.draw_step_at _ _ hInv hok
    refine ⟨hInv', ?_⟩
    rw [herase]
    exact Multiset.nodup_of_le (Multiset.erase_le _ _) hnd

-- Drawable mini-decks are never empty on reachable adaptive states.

theorem AInv_drawable_peek {s : ATState} (hA : s.AInv)
    (hlt : s.numDrawn < s.n) :
    ∃ i, i < s.d ∧ s.ell.getD i 0 < s.currentThreshold ∧
      s.ell.getD i 0 < s.sizes.getD i 0 := by
  obtain ⟨hd, hszl, hstl, helll, hle, hsz, hsum, hst, hells, ht, hbound⟩ := hA
  rcases hbound with h0 | hb
  · -- no draws yet: every nonempty mini-deck is drawable
    have hell0 : ∀ i, i < s.d → s.ell.getD i 0 = 0 := by
      intro i hi
      have hle' : s.ell.getD i 0 ≤ ∑ j ∈ Finset.range s.d, s.ell.getD j 0 :=
        Finset.single_le_sum (f := fun j => s.ell.getD j 0)
          (fun j _ => Nat.zero_le _) (Finset.mem_range.mpr hi)
      omega
    have hpos : ∃ i, i < s.d ∧ 0 < s.sizes.getD i 0 := by
      by_contra hc
      push_neg at hc
      have : (∑ i ∈ Finset.range s.d, s.sizes.getD i 0) = 0 := by
        apply Finset.sum_eq_zero
        intro i hi
        have := hc i (Finset.mem_range.mp hi)
        omega
      omega
    obtain ⟨i, hi, hpos⟩ := hpos
    refine ⟨i, hi, ?_, ?_⟩
    · rw [hell0 i hi, ATState.currentThreshold]
      split <;> omega
    · rw [hell0 i hi]; exact hpos
  · -- at least one draw: apply the counting lemma
    have hθ : s.numDrawn / s.d + 1 ≤ s.currentThreshold := by
      rw [ATState.currentThreshold, ← ht]
      split
      · rename_i h0
        rw [h0]
        simp
      · have : s.t / s.d ≤ (s.t + s.d - 1) / s.d :=
          Nat.div_le_div_right (by omega)
        omega
    obtain ⟨i, hi, h1, h2⟩ := drawable_aux
      (fun i => s.sizes.getD i 0) (fun i => s.ell.getD i 0)
      hd hsz hle hells hb hθ
    exact ⟨i, hi, h1, h2⟩

theorem AInv_drawable_loop {s : ATState} (hA : s.AInv)
    (hloop : s.numDrawn + 1 + 2 * s.d ≤ s.n) :
    ∃ i, i < s.d ∧
      s.ell.getD i 0 < (s.t + 1 + s.d - 1) / s.d + 1 ∧
      s.ell.getD i 0 < s.sizes.getD i 0 := by
  obtain ⟨hd, hszl, hstl, helll, hle, hsz, hsum, hst, hells, ht, hbound⟩ := hA
  have hθ : s.numDrawn / s.d + 1 ≤ (s.t + 1 + s.d - 1) / s.d + 1 := by
    have : s.numDrawn / s.d ≤ (s.t + 1 + s.d - 1) / s.d :=
      Nat.div_le_div_right (by omega)
    omega
  exact drawable_aux (fun i => s.sizes.getD i 0) (fun i => s.ell.getD i 0)
    hd hsz hle hells (by omega) hθ

-- ---------------------------------------------------------------------------
-- Bit-manipulation lemma kit (for PerfectDealer)
-- ---------------------------------------------------------------------------

theorem setBits_two_mul_add_one (x : ℕ) :
    setBits (2 * x + 1) = 0 :: (setBits x).map (· + 1) := by
  have h1 : (2 * x + 1) % 2 = 1 := by omega
  have h2 : (2 * x + 1) / 2 = x := by omega
  rw [setBits_succ (2 * x), h1, h2]
  simp

theorem setBits_two_mul (x : ℕ) :
    setBits (2 * x) = (setBits x).map (· + 1) := by
  match hx : 2 * x with
  | 0 =>
    have : x = 0 := by omega
    subst this
    simp [setBits_zero]
  | m + 1 =>
    rw [setBits_succ]
    have h1 : (m + 1) % 2 = 0 := by omega
    have h2 : (m + 1) / 2 = x := by omega
    rw [h1, h2]
    simp

theorem popcount_eq_length (m : ℕ) : popcount m = (setBits m).length := by
  induction m using Nat.strong_induction_on with
  | _ m ih =>
    match m with
    | 0 => rfl
    | m + 1 =>
      rw [popcount_succ, setBits_succ, List.length_append, List.length_map,
        ih ((m + 1) / 2) (by omega)]
      by_cases h : (m + 1) % 2 = 1
      · rw [if_pos h, h]; simp
      · rw [if_neg h]
        simp only [List.length_nil]
        omega

theorem setBits_nodup (m : ℕ) : (setBits m).Nodup := by
  induction m using Nat.strong_induction_on with
  | _ m ih =>
    match m with
    | 0 => exact List.nodup_nil
    | m + 1 =>
      rw [setBits_succ]
      have htail : ((setBits ((m + 1) / 2)).map (· + 1)).Nodup :=
        (ih ((m + 1) / 2) (by omega)).map (fun a b => by omega)
      split
      · rw [List.singleton_append, List.nodup_cons]
        refine ⟨?_, htail⟩
        intro hmem
        obtain ⟨a, _, ha⟩ := List.mem_map.mp hmem
        omega
      · simpa using htail

theorem zero_mem_setBits {m : ℕ} : 0 ∈ setBits m ↔ m % 2 = 1 := by
  match m with
  | 0 => simp [setBits_zero]
  | m + 1 =>
    rw [setBits_succ]
    constructor
    · intro h
      rcases List.mem_append.mp h with h1 | h1
      · by_contra hodd
        rw [if_neg hodd] at h1
        simp at h1
      · obtain ⟨a, _, ha⟩ := List.mem_map.mp h1
        omega
    · intro h
      rw [if_pos h]
      simp

theorem succ_mem_setBits {m p : ℕ} : p + 1 ∈ setBits m ↔ p ∈ setBits (m / 2) := by
  match m with
  | 0 => simp [setBits_zero]
  | m + 1 =>
    rw [setBits_succ]
    constructor
    · intro h
      rcases List.mem_append.mp h with h1 | h1
      · split at h1 <;> simp at h1
      · obtain ⟨a, ha, hae⟩ := List.mem_map.mp h1
        have : a = p := by omega
        exact this ▸ ha
    · intro h
      exact List.mem_append.mpr (Or.inr (List.mem_map.mpr ⟨p, h, rfl⟩))

theorem clearBit_zero (m : ℕ) :
    clearBit m 0 = if m % 2 = 1 then m - 1 else m := by
  rw [clearBit, Nat.testBit_zero]
  split <;> split <;> first | rfl | omega | simp_all

theorem clearBit_succ (m p : ℕ) :
    clearBit m (p + 1) = 2 * clearBit (m / 2) p + m % 2 := by
  have hpow : 0 < 2 ^ p := Nat.two_pow_pos p
  rw [clearBit, clearBit, Nat.testBit_add_one]
  split
  · rename_i hbit
    have hle : 2 ^ p ≤ m / 2 := by
      by_contra hlt
      push_neg at hlt
      rw [Nat.testBit_lt_two_pow hlt] at hbit
      cases hbit
    have hdm := Nat.div_add_mod m 2
    have hps : (2 : ℕ) ^ (p + 1) = 2 ^ p * 2 := pow_succ 2 p
    omega
  · have hdm := Nat.div_add_mod m 2
    omega

theorem setBits_clearBit {m p : ℕ} (h : p ∈ setBits m) :
    setBits (clearBit m p) = (setBits m).erase p := by
  induction p generalizing m with
  | zero =>
    have hodd : m % 2 = 1 := zero_mem_setBits.mp h
    rw [clearBit_zero, if_pos hodd]
    have hm : m = 2 * (m / 2) + 1 := by omega
    have hm1 : m - 1 = 2 * (m / 2) := by omega
    rw [hm1, setBits_two_mul]
    conv_rhs => rw [hm, setBits_two_mul_add_one]
    rw [List.erase_cons_head]
  | succ p ih =>
    have hmem : p ∈ setBits (m / 2) := succ_mem_setBits.mp h
    rw [clearBit_succ]
    rcases Nat.mod_two_eq_zero_or_one m with he | ho
    · have hm : m = 2 * (m / 2) := by omega
      rw [he, Nat.add_zero, setBits_two_mul, ih hmem]
      conv_rhs => rw [hm, setBits_two_mul]
      rw [List.map_erase (fun a b => by omega)]
    · have hm : m = 2 * (m / 2) + 1 := by omega
      rw [ho, setBits_two_mul_add_one, ih hmem]
      conv_rhs => rw [hm, setBits_two_mul_add_one]
      rw [List.erase_cons_tail (by simp), List.map_erase (fun a b => by omega)]

theorem bitSelect_eq_getElem (m : ℕ) : ∀ r : ℕ, bitSelect m r = (setBits m)[r]? := by
  induction m using Nat.strong_induction_on with
  | _ m ih =>
    intro r
    match m with
    | 0 => simp [bitSelect_zero, setBits_zero]
    | m + 1 =>
      rw [bitSelect_succ, setBits_succ]
      by_cases hodd : (m + 1) % 2 = 1
      · rw [if_pos hodd, if_pos hodd]
        match r with
        | 0 => simp
        | r + 1 =>
          rw [List.singleton_append]
          simp only [List.getElem?_cons_succ, Nat.add_sub_cancel]
          rw [if_neg (by omega), ih ((m + 1) / 2) (by omega) r,
            List.getElem?_map]
      · rw [if_neg hodd, if_neg hodd]
        rw [List.nil_append, ih ((m + 1) / 2) (by omega) r, List.getElem?_map]

theorem clearBit_le (m p : ℕ) : clearBit m p ≤ m := by
  rw [clearBit]
  split
  · exact Nat.sub_le _ _
  · exact le_refl _

-- ---------------------------------------------------------------------------
-- PerfectDealer (perfect.py)
-- ---------------------------------------------------------------------------

/-- Structural worker for `ceilLog2` (fuel decreases; the argument halves). -/
def ceilLog2Go : ℕ → ℕ → ℕ
  | 0, _ => 0
  | fuel + 1, x => if x ≤ 1 then 0 else ceilLog2Go fuel ((x + 1) / 2) + 1

/-- `math.ceil(math.log2(x))` for `x ≥ 1`: the least `k` with `x ≤ 2^k`. -/
def ceilLog2 (x : ℕ) : ℕ := ceilLog2Go x x

/-- A cell of the PerfectDealer (`_Cell` dataclass: `index`, `mask`,
`base`). -/
structure PCell where
  index : ℕ
  mask : ℕ
  base : ℕ
  deriving Repr, DecidableEq

instance : Inhabited PCell := ⟨⟨0, 0, 0⟩⟩

/-- State of `PerfectDealer` (fields `_n`, `_num_drawn`, `_w`,
`_num_cells`, `_cells`, `_interval_begin`, `_interval_size`). -/
structure PState where
  n : ℕ
  numDrawn : ℕ
  w : ℕ
  numCells : ℕ
  cells : List PCell
  intervalBegin : List ℕ
  intervalSize : List ℕ
  pos : ℕ
  deriving Repr

/-- The interval-assignment loop inside `PerfectDealer.reset`:
iterates `p = 0 … w` keeping a running `offset`; returns
`(interval_begin, interval_size)`. -/
def assignIntervals (cnt : ℕ → ℕ) : ℕ → ℕ → ℕ → List ℕ × List ℕ
  | 0, _, _ => ([], [])
  | k + 1, p, offset =>
    let c := cnt p
    let rest := assignIntervals cnt k (p + 1) (offset + c)
    (offset :: rest.1, c :: rest.2)

/-- `PerfectDealer.reset(n, np_random)`: build cells, stable-sort them by
population (Python's `list.sort(key=…)` is a stable ascending sort, which
is uniquely determined, so Mathlib's stable `insertionSort` models it),
and assign the population intervals. -/
def PState.reset (n pos : ℕ) : PState :=
  let w := max 1 (ceilLog2 (max n 2))
  let numCells := (n + w - 1) / w
  let cellsInit := (List.range numCells).map
    (fun j => PCell.mk j (2 ^ (min w (n - j * w)) - 1) (j * w))
  let cells := cellsInit.insertionSort
    (fun a b => popcount a.mask ≤ popcount b.mask)
  let cnt := fun p => cells.countP (fun c => popcount c.mask == p)
  let intervals := assignIntervals cnt (w + 1) 0 0
  { n := n, numDrawn := 0, w := w, numCells := numCells, cells := cells
    intervalBegin := intervals.1, intervalSize := intervals.2, pos := pos }

/-- `total = Σ_{p=1..w} p · interval_size[p]` inside
`PerfectDealer.draw`. -/
def PState.totalWeight (s : PState) : ℕ :=
  ∑ p ∈ Finset.Icc 1 s.w, p * s.intervalSize.getD p 0

/-- Structural worker for the population prefix-sum scan (fuel counts the
remaining loop iterations). -/
def scanPopGo (isz : List ℕ) (w r : ℕ) : ℕ → ℕ → ℕ → ℕ
  | 0, _, _ => 0
  | fuel + 1, p, cumul =>
    if w < p then 0
    else
      let c := cumul + p * isz.getD p 0
      if r < c then p
      else scanPopGo isz w r fuel (p + 1) c

/-- The prefix-sum scan choosing the population inside
`PerfectDealer.draw` (loop `for p in 1..w`, breaking at the first `p`
with `r < cumul`; 0 if no break happens). -/
def scanPop (isz : List ℕ) (w r : ℕ) : ℕ := scanPopGo isz w r (w + 1) 1 0

/-- `PerfectDealer.draw()` including `_decrement_cell_population`
(Algorithm A.2: swap the drawn cell to the head of its interval, shrink
the old interval from the left, grow the new interval on the right). -/
def PState.draw (g : ℕ → ℕ) (s : PState) : Except DealerErr (ℕ × PState) :=
  if s.numDrawn ≥ s.n then .error .exhausted
  else
    let total := s.totalWeight
    if total = 0 then .error .inconsistent
    else
      let r := uniformInt g s.pos 0 (total - 1)
      let chosenPop := scanPop s.intervalSize s.w r
      let isize := s.intervalSize.getD chosenPop 0
      let loc := uniformInt g (s.pos + 1) 0 (isize - 1)
      let first := s.intervalBegin.getD chosenPop 0
      let cellIdx := first + loc
      let cell := s.cells.getD cellIdx default
      let bitR := uniformInt g (s.pos + 2) 0 (chosenPop - 1)
      match bitSelect cell.mask bitR with
      | none => .error .selectFail
      | some bitPos =>
        let elementId := cell.base + bitPos
        let cell' : PCell := { cell with mask := clearBit cell.mask bitPos }
        let cells1 := s.cells.set cellIdx cell'
        let cells2 :=
          if cellIdx ≠ first then
            (cells1.set cellIdx (cells1.getD first default)).set first
              (cells1.getD cellIdx default)
          else cells1
        .ok (elementId,
          { s with
            cells := cells2
            intervalBegin := s.intervalBegin.set chosenPop (first + 1)
            intervalSize := (s.intervalSize.set chosenPop
                (s.intervalSize.getD chosenPop 0 - 1)).set (chosenPop - 1)
              (s.intervalSize.getD (chosenPop - 1) 0 + 1)
            numDrawn := s.numDrawn + 1
            pos := s.pos + 3 })

/-- `PerfectDealer.peek_next_distribution()` over `ℚ`: one entry per set
bit across the cells, each with probability `1/remaining`. -/
def PState.peek (s : PState) : Option (List (ℕ × ℚ)) :=
  let rem := s.n - s.numDrawn
  if rem = 0 then none
  else some (s.cells.flatMap (fun c =>
    (setBits c.mask).map (fun p => (c.base + p, (1 : ℚ) / rem))))

/-- Remaining ids of a `PerfectDealer` state: the multiset of
`base + bit` over all set bits of all cell masks. -/
def PState.rem (s : PState) : Multiset ℕ :=
  ((s.cells.map (fun c =>
    (((setBits c.mask).map (fun p => c.base + p) : List ℕ) : Multiset ℕ))).sum)

/-- Structural invariant of `PerfectDealer` states: the interval tables
describe a population-sorted layout of the cells. -/
def PState.Inv (s : PState) : Prop :=
  s.intervalBegin.length = s.w + 1 ∧
  s.intervalSize.length = s.w + 1 ∧
  (∀ p, p ≤ s.w →
    s.intervalBegin.getD p 0 = ∑ q ∈ Finset.range p, s.intervalSize.getD q 0) ∧
  (∑ p ∈ Finset.range (s.w + 1), s.intervalSize.getD p 0) = s.cells.length ∧
  (∀ p, p ≤ s.w → ∀ k, k < s.intervalSize.getD p 0 →
    popcount (s.cells.getD (s.intervalBegin.getD p 0 + k) default).mask = p) ∧
  (∀ c ∈ s.cells, c.mask < 2 ^ s.w) ∧
  (∑ p ∈ Finset.range (s.w + 1), p * s.intervalSize.getD p 0)
    = s.n - s.numDrawn ∧
  Multiset.card s.rem = s.n - s.numDrawn ∧
  s.numDrawn ≤ s.n

theorem totalWeight_eq_range (s : PState) :
    s.totalWeight
      = ∑ p ∈ Finset.range (s.w + 1), p * s.intervalSize.getD p 0 := by
  rw [PState.totalWeight]
  apply Finset.sum_subset
  · intro p hp
    rw [Finset.mem_Icc] at hp
    rw [Finset.mem_range]
    omega
  · intro p hp hnp
    rw [Finset.mem_range] at hp
    rw [Finset.mem_Icc] at hnp
    have : p = 0 := by omega
    subst this
    ring

theorem assignIntervals_fst_length (cnt : ℕ → ℕ) :
    ∀ k p off, (assignIntervals cnt k p off).1.length = k := by
  intro k
  induction k with
  | zero => intro p off; rfl
  | succ k ih => intro p off; simp [assignIntervals, ih]

theorem assignIntervals_snd_length (cnt : ℕ → ℕ) :
    ∀ k p off, (assignIntervals cnt k p off).2.length = k := by
  intro k
  induction k with
  | zero => intro p off; rfl
  | succ k ih => intro p off; simp [assignIntervals, ih]

theorem assignIntervals_snd_getD (cnt : ℕ → ℕ) :
    ∀ k p off j, j < k →
      (assignIntervals cnt k p off).2.getD j 0 = cnt (p + j) := by
  intro k
  induction k with
  | zero => intro p off j hj; omega
  | succ k ih =>
    intro p off j hj
    match j with
    | 0 => simp [assignIntervals]
    | j + 1 =>
      show (assignIntervals cnt k (p + 1) _).2.getD j 0 = _
      rw [ih (p + 1) _ j (by omega)]
      have : p + 1 + j = p + (j + 1) := by omega
      rw [this]

theorem assignIntervals_fst_getD (cnt : ℕ → ℕ) :
    ∀ k p off j, j < k →
      (assignIntervals cnt k p off).1.getD j 0
        = off + ∑ q ∈ Finset.range j, cnt (p + q) := by
  intro k
  induction k with
  | zero => intro p off j hj; omega
  | succ k ih =>
    intro p off j hj
    match j with
    | 0 => simp [assignIntervals]
    | j + 1 =>
      show (assignIntervals cnt k (p + 1) _).1.getD j 0 = _
      rw [ih (p + 1) _ j (by omega)]
      rw [Finset.sum_range_succ']
      have hcongr : ∀ q, cnt (p + 1 + q) = cnt (p + (q + 1)) := by
        intro q
        have h : p + 1 + q = p + (q + 1) := by omega
        rw [h]
      rw [Finset.sum_congr rfl (fun q _ => hcongr q)]
      have hz : p + 0 = p := rfl
      simp only [hz]
      omega

theorem sum_countP_eq_length (f : PCell → ℕ) (m : ℕ) :
    ∀ l : List PCell, (∀ x ∈ l, f x < m) →
      (∑ p ∈ Finset.range m, l.countP (fun c => f c == p)) = l.length := by
  intro l
  induction l with
  | nil => intro _; simp
  | cons a t ih =>
    intro hlt
    have hat : f a < m := hlt a (List.mem_cons_self a t)
    have hsum : (∑ p ∈ Finset.range m,
        (if f a == p then 1 else 0 : ℕ)) = 1 := by
      have : ∀ p, (if f a == p then 1 else 0 : ℕ)
          = (if p = f a then 1 else 0 : ℕ) := by
        intro p
        by_cases h : f a = p
        · simp [h]
        · simp [h, Ne.symm h, beq_iff_eq]
      rw [Finset.sum_congr rfl (fun p _ => this p)]
      rw [Finset.sum_ite_eq' (Finset.range m) (f a) (fun _ => 1)]
      simp [hat]
    calc (∑ p ∈ Finset.range m, (a :: t).countP (fun c => f c == p))
        = ∑ p ∈ Finset.range m,
            (t.countP (fun c => f c == p) + if f a == p then 1 else 0) := by
          apply Finset.sum_congr rfl
          intro p _
          rw [List.countP_cons]
      _ = t.length + 1 := by
          rw [Finset.sum_add_distrib, ih (fun x hx => hlt x (List.mem_cons_of_mem a hx)), hsum]
      _ = (a :: t).length := by simp

theorem scanPopGo_spec {isz : List ℕ} {w r : ℕ} :
    ∀ fuel p cumul,
      w + 1 ≤ p + fuel →
      1 ≤ p →
      cumul = ∑ q ∈ Finset.Icc 1 (p - 1), q * isz.getD q 0 →
      cumul ≤ r →
      r < ∑ q ∈ Finset.Icc 1 w, q * isz.getD q 0 →
      1 ≤ scanPopGo isz w r fuel p cumul ∧
      scanPopGo isz w r fuel p cumul ≤ w ∧
      (∑ q ∈ Finset.Icc 1 (scanPopGo isz w r fuel p cumul - 1),
        q * isz.getD q 0) ≤ r ∧
      r < ∑ q ∈ Finset.Icc 1 (scanPopGo isz w r fuel p cumul),
        q * isz.getD q 0 := by
  intro fuel
  induction fuel with
  | zero =>
    intro p cumul hfuel hp hcumul hle hr
    exfalso
    have hsub : Finset.Icc 1 w ⊆ Finset.Icc 1 (p - 1) := by
      intro q hq
      rw [Finset.mem_Icc] at hq ⊢
      omega
    have hmono : (∑ q ∈ Finset.Icc 1 w, q * isz.getD q 0)
        ≤ ∑ q ∈ Finset.Icc 1 (p - 1), q * isz.getD q 0 :=
      Finset.sum_le_sum_of_subset hsub
    omega
  | succ fuel ih =>
    intro p cumul hfuel hp hcumul hle hr
    rw [scanPopGo]
    by_cases hwp : w < p
    · exfalso
      have hsub : Finset.Icc 1 w ⊆ Finset.Icc 1 (p - 1) := by
        intro q hq
        rw [Finset.mem_Icc] at hq ⊢
        omega
      have hmono : (∑ q ∈ Finset.Icc 1 w, q * isz.getD q 0)
          ≤ ∑ q ∈ Finset.Icc 1 (p - 1), q * isz.getD q 0 :=
        Finset.sum_le_sum_of_subset hsub
      omega
    · rw [if_neg hwp]
      have hp1 : p - 1 + 1 = p := by omega
      have hstep : (∑ q ∈ Finset.Icc 1 p, q * isz.getD q 0)
          = (∑ q ∈ Finset.Icc 1 (p - 1), q * isz.getD q 0)
            + p * isz.getD p 0 := by
        conv_lhs => rw [← hp1]
        rw [Finset.sum_Icc_succ_top (by omega)]
        rw [hp1]
      by_cases hrc : r < cumul + p * isz.getD p 0
      · rw [if_pos hrc]
        refine ⟨hp, by omega, by omega, ?_⟩
        omega
      · rw [if_neg hrc]
        apply ih (p + 1) (cumul + p * isz.getD p 0) (by omega) (by omega)
          ?_ (by omega) hr
        have : p + 1 - 1 = p := by omega
        rw [this, hstep, hcumul]

theorem scanPop_spec {isz : List ℕ} {w r : ℕ}
    (hr : r < ∑ q ∈ Finset.Icc 1 w, q * isz.getD q 0) :
    1 ≤ scanPop isz w r ∧ scanPop isz w r ≤ w ∧
      1 ≤ isz.getD (scanPop isz w r) 0 := by
  have h0 : (0 : ℕ) = ∑ q ∈ Finset.Icc 1 (1 - 1), q * isz.getD q 0 := by
    simp
  obtain ⟨h1, h2, h3, h4⟩ := @scanPopGo_spec isz w r
    (w + 1) 1 0 (by omega) (le_refl 1) h0 (Nat.zero_le r) hr
  rw [scanPop]
  refine ⟨h1, h2, ?_⟩
  set res := scanPopGo isz w r (w + 1) 1 0 with hres
  have hp1 : res - 1 + 1 = res := by omega
  have hstep : (∑ q ∈ Finset.Icc 1 res, q * isz.getD q 0)
      = (∑ q ∈ Finset.Icc 1 (res - 1), q * isz.getD q 0)
        + res * isz.getD res 0 := by
    conv_lhs => rw [← hp1]
    rw [Finset.sum_Icc_succ_top (by omega)]
    rw [hp1]
  by_contra hc
  push_neg at hc
  have : isz.getD res 0 = 0 := by omega
  rw [this, Nat.mul_zero, Nat.add_zero] at hstep
  omega

theorem sum_beq_ite (v m : ℕ) :
    (∑ q ∈ Finset.range m, (if v == q then 1 else 0 : ℕ))
      = if v < m then 1 else 0 := by
  have hconv : ∀ q, (if v == q then 1 else 0 : ℕ)
      = (if q = v then 1 else 0) := by
    intro q
    by_cases h : v = q
    · simp [h]
    · simp [h, Ne.symm h]
  rw [Finset.sum_congr rfl (fun q _ => hconv q),
    Finset.sum_ite_eq' (Finset.range m) v (fun _ => 1)]
  simp [Finset.mem_range]

theorem sorted_count_window (f : PCell → ℕ) :
    ∀ (l : List PCell), l.Pairwise (fun a b => f a ≤ f b) →
      ∀ j (hj : j < l.length),
        (∑ q ∈ Finset.range (f (l.get ⟨j, hj⟩)),
          l.countP (fun x => f x == q)) ≤ j ∧
        j < ∑ q ∈ Finset.range (f (l.get ⟨j, hj⟩) + 1),
          l.countP (fun x => f x == q) := by
  intro l
  induction l with
  | nil => intro _ j hj; simp at hj
  | cons a t ih =>
    intro hsorted j hj
    obtain ⟨ha, ht⟩ := List.pairwise_cons.mp hsorted
    match j with
    | 0 =>
      have hget : (a :: t).get ⟨0, hj⟩ = a := rfl
      rw [hget]
      constructor
      · have hz : ∀ q ∈ Finset.range (f a),
            (a :: t).countP (fun x => f x == q) = 0 := by
          intro q hq
          rw [Finset.mem_range] at hq
          rw [List.countP_eq_zero]
          intro x hx
          rcases List.mem_cons.mp hx with h | h
          · subst h
            simp only [beq_iff_eq]
            omega
          · have := ha x h
            simp only [beq_iff_eq]
            omega
        rw [Finset.sum_congr rfl hz]
        simp
      · have hmem : f a ∈ Finset.range (f a + 1) := by
          rw [Finset.mem_range]; omega
        have hone : 1 ≤ (a :: t).countP (fun x => f x == f a) := by
          rw [List.countP_cons]
          simp
        have hsle : (a :: t).countP (fun x => f x == f a)
            ≤ ∑ q ∈ Finset.range (f a + 1),
              (a :: t).countP (fun x => f x == q) :=
          Finset.single_le_sum (f := fun q => (a :: t).countP
            (fun x => f x == q)) (fun q _ => Nat.zero_le _) hmem
        omega
    | j + 1 =>
      have hjt : j < t.length := by simpa using hj
      have hget : (a :: t).get ⟨j + 1, hj⟩ = t.get ⟨j, hjt⟩ := rfl
      obtain ⟨ihl, ihu⟩ := ih ht j hjt
      rw [hget]
      have hfa : f a ≤ f (t.get ⟨j, hjt⟩) := ha _ (t.get_mem j hjt)
      have hsplit : ∀ m : ℕ,
          (∑ q ∈ Finset.range m, (a :: t).countP (fun x => f x == q))
            = (∑ q ∈ Finset.range m, t.countP (fun x => f x == q))
              + (if f a < m then 1 else 0) := by
        intro m
        rw [Finset.sum_congr rfl
          (fun q _ => List.countP_cons (fun x => f x == q) a t)]
        rw [Finset.sum_add_distrib, sum_beq_ite]
      constructor
      · rw [hsplit]
        split <;> omega
      · rw [hsplit]
        have hlt : f a < f (t.get ⟨j, hjt⟩) + 1 := by omega
        rw [if_pos hlt]
        omega

theorem popcount_le_of_lt_two_pow :
    ∀ w m : ℕ, m < 2 ^ w → popcount m ≤ w := by
  intro w
  induction w with
  | zero =>
    intro m hm
    have : m = 0 := by
      have : (2 : ℕ) ^ 0 = 1 := pow_zero 2
      omega
    subst this
    rw [popcount_zero]
  | succ w ih =>
    intro m hm
    match m with
    | 0 => rw [popcount_zero]; omega
    | m + 1 =>
      rw [popcount_succ]
      have hps : (2 : ℕ) ^ (w + 1) = 2 ^ w * 2 := pow_succ 2 w
      have hdiv : (m + 1) / 2 < 2 ^ w := by omega
      have := ih ((m + 1) / 2) hdiv
      omega

theorem setBits_two_pow_sub_one :
    ∀ v : ℕ, setBits (2 ^ v - 1) = List.range v := by
  intro v
  induction v with
  | zero => simp [setBits_zero]
  | succ v ih =>
    have hpos : 0 < 2 ^ v := Nat.two_pow_pos v
    have heq : 2 ^ (v + 1) - 1 = 2 * (2 ^ v - 1) + 1 := by
      have hps : (2 : ℕ) ^ (v + 1) = 2 ^ v * 2 := pow_succ 2 v
      omega
    rw [heq, setBits_two_mul_add_one, ih, List.range_succ_eq_map]

theorem popcount_two_pow_sub_one (v : ℕ) : popcount (2 ^ v - 1) = v := by
  rw [popcount_eq_length, setBits_two_pow_sub_one, List.length_range]

theorem list_sum_map_range {M : Type} [AddCommMonoid M] (g : ℕ → M) :
    ∀ n : ℕ, ((List.range n).map g).sum = ∑ j ∈ Finset.range n, g j := by
  intro n
  induction n with
  | zero => simp
  | succ n ih =>
    rw [List.range_succ, List.map_append, List.sum_append,
      Finset.sum_range_succ, ih]
    simp

theorem sum_pop_countP (f : PCell → ℕ) (m : ℕ) :
    ∀ l : List PCell, (∀ x ∈ l, f x < m) →
      (∑ p ∈ Finset.range m, p * l.countP (fun c => f c == p))
        = (l.map f).sum := by
  intro l
  induction l with
  | nil => intro _; simp
  | cons a t ih =>
    intro hlt
    have hat : f a < m := hlt a (List.mem_cons_self a t)
    have hsum : (∑ p ∈ Finset.range m,
        p * (if f a == p then 1 else 0 : ℕ)) = f a := by
      have hconv : ∀ p, p * (if f a == p then 1 else 0 : ℕ)
          = (if p = f a then p else 0 : ℕ) := by
        intro p
        by_cases h : f a = p
        · simp [h]
        · simp [h, Ne.symm h, beq_iff_eq]
      rw [Finset.sum_congr rfl (fun p _ => hconv p),
        Finset.sum_ite_eq' (Finset.range m) (f a) (fun p => p)]
      simp [hat]
    calc (∑ p ∈ Finset.range m, p * (a :: t).countP (fun c => f c == p))
        = ∑ p ∈ Finset.range m,
            (p * t.countP (fun c => f c == p)
              + p * (if f a == p then 1 else 0)) := by
          apply Finset.sum_congr rfl
          intro p _
          rw [List.countP_cons, Nat.mul_add]
      _ = (t.map f).sum + f a := by
          rw [Finset.sum_add_distrib,
            ih (fun x hx => hlt x (List.mem_cons_of_mem a hx)), hsum]
      _ = ((a :: t).map f).sum := by
          simp
          omega

theorem card_list_msum (fm : PCell → Multiset ℕ) :
    ∀ l : List PCell,
      Multiset.card ((l.map fm).sum) = (l.map (fun c => Multiset.card (fm c))).sum := by
  intro l
  induction l with
  | nil => simp
  | cons a t ih => simp [ih]

theorem sum_min_partition (w : ℕ) :
    ∀ j n : ℕ, (∑ q ∈ Finset.range j, min w (n - q * w)) = min n (j * w) := by
  intro j
  induction j with
  | zero => intro n; simp
  | succ j ih =>
    intro n
    rw [Finset.sum_range_succ, ih]
    have h1 : (j + 1) * w = j * w + w := by ring
    omega

theorem PState.reset_rem_p (n pos : ℕ) :
    (PState.reset n pos).rem = ((List.range n : List ℕ) : Multiset ℕ) := by
  set w := max 1 (ceilLog2 (max n 2)) with hw
  set numCells := (n + w - 1) / w with hC
  set cellsInit := (List.range numCells).map
    (fun j => PCell.mk j (2 ^ (min w (n - j * w)) - 1) (j * w)) with hInit
  set cells := cellsInit.insertionSort
    (fun a b => popcount a.mask ≤ popcount b.mask) with hcells
  have hw1 : 1 ≤ w := le_max_left 1 _
  have hperm : cells.Perm cellsInit :=
    List.perm_insertionSort (fun a b => popcount a.mask ≤ popcount b.mask)
      cellsInit
  set comp : PCell → Multiset ℕ := fun c =>
    (((setBits c.mask).map (fun p => c.base + p) : List ℕ) : Multiset ℕ)
    with hcomp
  have hrem : (PState.reset n pos).rem = ((cells.map comp).sum) := rfl
  rw [hrem, List.Perm.sum_eq (hperm.map comp)]
  rw [hInit, List.map_map]
  have hcompj : ∀ j : ℕ,
      (comp ∘ fun j => PCell.mk j (2 ^ (min w (n - j * w)) - 1) (j * w)) j
        = ((List.range' (j * w) (min w (n - j * w)) : List ℕ) : Multiset ℕ) := by
    intro j
    show (((setBits (2 ^ (min w (n - j * w)) - 1)).map
      (fun p => j * w + p) : List ℕ) : Multiset ℕ) = _
    rw [setBits_two_pow_sub_one, ← List.range'_eq_map_range]
  rw [List.map_congr_left (fun j _ => hcompj j), list_sum_map_range]
  have hCw_le : numCells * w ≤ n + w - 1 := Nat.div_mul_le_self _ _
  have hCw_ge : n ≤ numCells * w := by
    have hdm : w * numCells + (n + w - 1) % w = n + w - 1 := by
      rw [hC]
      exact Nat.div_add_mod (n + w - 1) w
    have hmod : (n + w - 1) % w < w := Nat.mod_lt _ (by omega)
    have hcomm : w * numCells = numCells * w := Nat.mul_comm w numCells
    omega
  have hjw : ∀ j, j < numCells → j * w ≤ n := by
    intro j hj
    have h1 : (j + 1) * w ≤ numCells * w :=
      Nat.mul_le_mul_right w (by omega)
    have h2 : (j + 1) * w = j * w + w := by ring
    omega
  have hcongr : ∀ j ∈ Finset.range numCells,
      ((List.range' (j * w) (min w (n - j * w)) : List ℕ) : Multiset ℕ)
        = ((List.range' (∑ q ∈ Finset.range j, min w (n - q * w))
            (min w (n - j * w)) : List ℕ) : Multiset ℕ) := by
    intro j hj
    have hj' := Finset.mem_range.mp hj
    rw [sum_min_partition w j n]
    have : min n (j * w) = j * w := by
      have := hjw j hj'
      omega
    rw [this]
  rw [Finset.sum_congr rfl hcongr,
    sum_range'_prefix (fun q => min w (n - q * w)) numCells,
    sum_min_partition w numCells n]
  have hmin : min n (numCells * w) = n := by omega
  rw [hmin, ← List.range_eq_range']

theorem PState.reset_Inv_p (n pos : ℕ) : (PState.reset n pos).Inv := by
  set w := max 1 (ceilLog2 (max n 2)) with hw
  set numCells := (n + w - 1) / w with hC
  set cellsInit := (List.range numCells).map
    (fun j => PCell.mk j (2 ^ (min w (n - j * w)) - 1) (j * w)) with hInit
  set cells := cellsInit.insertionSort
    (fun a b => popcount a.mask ≤ popcount b.mask) with hcells
  set cnt : ℕ → ℕ := fun p => cells.countP (fun c => popcount c.mask == p)
    with hcnt
  have hw1 : 1 ≤ w := le_max_left 1 _
  have hperm : cells.Perm cellsInit :=
    List.perm_insertionSort (fun a b => popcount a.mask ≤ popcount b.mask)
      cellsInit
  have hmask : ∀ c ∈ cells, c.mask < 2 ^ w := by
    intro c hc
    have hc' : c ∈ cellsInit := (hperm.mem_iff).mp hc
    obtain ⟨j, _, hj⟩ := List.mem_map.mp hc'
    have hple : (2 : ℕ) ^ (min w (n - j * w)) ≤ 2 ^ w :=
      Nat.pow_le_pow_right (by omega) (min_le_left _ _)
    have hpos : 0 < (2 : ℕ) ^ (min w (n - j * w)) := Nat.two_pow_pos _
    rw [← hj]
    show 2 ^ (min w (n - j * w)) - 1 < 2 ^ w
    omega
  have hpoplt : ∀ c ∈ cells, popcount c.mask < w + 1 := by
    intro c hc
    have := popcount_le_of_lt_two_pow w c.mask (hmask c hc)
    omega
  haveI hTot : IsTotal PCell (fun a b => popcount a.mask ≤ popcount b.mask) :=
    ⟨fun a b => Nat.le_total _ _⟩
  haveI hTrans : IsTrans PCell (fun a b => popcount a.mask ≤ popcount b.mask) :=
    ⟨fun a b c hab hbc => le_trans hab hbc⟩
  have hsorted : cells.Pairwise
      (fun a b => popcount a.mask ≤ popcount b.mask) :=
    List.sorted_insertionSort _ cellsInit
  have hsz_getD : ∀ p, p ≤ w →
      (assignIntervals cnt (w + 1) 0 0).2.getD p 0 = cnt p := by
    intro p hp
    rw [assignIntervals_snd_getD cnt (w + 1) 0 0 p (by omega), Nat.zero_add]
  have hbg_getD : ∀ p, p ≤ w →
      (assignIntervals cnt (w + 1) 0 0).1.getD p 0
        = ∑ q ∈ Finset.range p, cnt q := by
    intro p hp
    rw [assignIntervals_fst_getD cnt (w + 1) 0 0 p (by omega)]
    simp
  refine ⟨assignIntervals_fst_length cnt (w + 1) 0 0,
    assignIntervals_snd_length cnt (w + 1) 0 0, ?_, ?_, ?_, hmask, ?_, ?_, ?_⟩
  · -- interval_begin is the prefix sum of interval_size
    intro p hp
    replace hp : p ≤ w := hp
    show (assignIntervals cnt (w + 1) 0 0).1.getD p 0
      = ∑ q ∈ Finset.range p, (assignIntervals cnt (w + 1) 0 0).2.getD q 0
    rw [hbg_getD p hp]
    exact Finset.sum_congr rfl
      (fun q hq => (hsz_getD q (by
        have := Finset.mem_range.mp hq
        omega)).symm)
  · -- the interval sizes cover all cells
    show (∑ p ∈ Finset.range (w + 1),
      (assignIntervals cnt (w + 1) 0 0).2.getD p 0) = cells.length
    rw [Finset.sum_congr rfl (fun p hp => hsz_getD p (by
      have := Finset.mem_range.mp hp
      omega))]
    exact sum_countP_eq_length (fun c => popcount c.mask) (w + 1) cells hpoplt
  · -- cells in interval p have population p
    intro p hp k hk
    replace hp : p ≤ w := hp
    replace hk : k < (assignIntervals cnt (w + 1) 0 0).2.getD p 0 := hk
    rw [hsz_getD p hp] at hk
    show popcount ((cells.getD ((assignIntervals cnt (w + 1) 0 0).1.getD p 0
      + k) default).mask) = p
    rw [hbg_getD p hp]
    set j := (∑ q ∈ Finset.range p, cnt q) + k with hj
    have hcover : (∑ q ∈ Finset.range (w + 1), cnt q) = cells.length :=
      sum_countP_eq_length (fun c => popcount c.mask) (w + 1) cells hpoplt
    have hple : (∑ q ∈ Finset.range (p + 1), cnt q)
        ≤ ∑ q ∈ Finset.range (w + 1), cnt q :=
      Finset.sum_le_sum_of_subset
        (Finset.range_subset.mpr (by omega))
    have hsucc : (∑ q ∈ Finset.range (p + 1), cnt q)
        = (∑ q ∈ Finset.range p, cnt q) + cnt p := Finset.sum_range_succ cnt p
    have hjlt : j < cells.length := by omega
    have hgetD : cells.getD j default = cells.get ⟨j, hjlt⟩ := by
      rw [List.getD_eq_getElem?_getD, List.getElem?_eq_getElem hjlt]
      rfl
    obtain ⟨hwin1, hwin2⟩ := sorted_count_window
      (fun c => popcount c.mask) cells hsorted j hjlt
    set p' := popcount (cells.get ⟨j, hjlt⟩).mask with hp'
    have hwin1' : (∑ q ∈ Finset.range p', cnt q) ≤ j := hwin1
    have hwin2' : j < ∑ q ∈ Finset.range (p' + 1), cnt q := hwin2
    rw [hgetD]
    by_contra hne
    rcases Nat.lt_or_ge p' p with hlt | hge
    · have hsub : (∑ q ∈ Finset.range (p' + 1), cnt q)
          ≤ ∑ q ∈ Finset.range p, cnt q :=
        Finset.sum_le_sum_of_subset (Finset.range_subset.mpr (by omega))
      omega
    · have hplt : p < p' := by omega
      have hsub : (∑ q ∈ Finset.range (p + 1), cnt q)
          ≤ ∑ q ∈ Finset.range p', cnt q :=
        Finset.sum_le_sum_of_subset (Finset.range_subset.mpr (by omega))
      omega
  · -- total weight is n
    show (∑ p ∈ Finset.range (w + 1),
      p * (assignIntervals cnt (w + 1) 0 0).2.getD p 0) = n - 0
    rw [Finset.sum_congr rfl (fun p hp => by
      rw [hsz_getD p (by
        have := Finset.mem_range.mp hp
        omega)])]
    rw [sum_pop_countP (fun c => popcount c.mask) (w + 1) cells hpoplt]
    rw [List.Perm.sum_eq (hperm.map (fun c => popcount c.mask))]
    rw [hInit, List.map_map]
    have hcompj : ∀ j : ℕ,
        ((fun c => popcount c.mask) ∘ fun j =>
          PCell.mk j (2 ^ (min w (n - j * w)) - 1) (j * w)) j
          = min w (n - j * w) := by
      intro j
      exact popcount_two_pow_sub_one _
    rw [List.map_congr_left (fun j _ => hcompj j), list_sum_map_range,
      sum_min_partition w numCells n]
    have hCw_ge : n ≤ numCells * w := by
      have hdm : w * numCells + (n + w - 1) % w = n + w - 1 := by
        rw [hC]
        exact Nat.div_add_mod (n + w - 1) w
      have hmod : (n + w - 1) % w < w := Nat.mod_lt _ (by omega)
      have hcomm : w * numCells = numCells * w := Nat.mul_comm w numCells
      omega
    omega
  · -- remaining multiset has the right size
    show Multiset.card (PState.reset n pos).rem = n - 0
    rw [PState.reset_rem_p n pos]
    simp
  · exact Nat.zero_le n

theorem msum_set (f : PCell → Multiset ℕ) :
    ∀ (l : List PCell) (i : ℕ), i < l.length → ∀ y : PCell,
      ((l.set i y).map f).sum + f (l.getD i default)
        = (l.map f).sum + f y := by
  intro l
  induction l with
  | nil => intro i hi; simp at hi
  | cons a t ih =>
    intro i hi y
    match i with
    | 0 => simp [add_comm, add_left_comm]
    | i + 1 =>
      have hit : i < t.length := by simpa using hi
      simp only [List.set_cons_succ, List.getD_cons_succ, List.map_cons,
        List.sum_cons]
      have := ih i hit y
      calc f a + ((t.set i y).map f).sum + f (t.getD i default)
          = f a + (((t.set i y).map f).sum + f (t.getD i default)) := by
            rw [add_assoc]
        _ = f a + ((t.map f).sum + f y) := by rw [this]
        _ = f a + (t.map f).sum + f y := by rw [add_assoc]

theorem mem_msum_of_mem (f : PCell → Multiset ℕ) :
    ∀ (l : List PCell) (c : PCell), c ∈ l → ∀ x : ℕ, x ∈ f c →
      x ∈ (l.map f).sum := by
  intro l
  induction l with
  | nil => intro c hc; simp at hc
  | cons a t ih =>
    intro c hc x hx
    simp only [List.map_cons, List.sum_cons]
    rcases List.mem_cons.mp hc with h | h
    · subst h
      exact Multiset.mem_add.mpr (Or.inl hx)
    · exact Multiset.mem_add.mpr (Or.inr (ih c h x hx))

theorem sum_peel_two {M : Type} [AddCommMonoid M] (f : ℕ → M)
    {s : Finset ℕ} {a b : ℕ} (hab : a ≠ b) (ha : a ∈ s) (hb : b ∈ s) :
    (∑ q ∈ s, f q) = f a + f b + ∑ q ∈ (s.erase a).erase b, f q := by
  rw [← Finset.add_sum_erase s f ha, add_assoc,
    ← Finset.add_sum_erase (s.erase a) f (Finset.mem_erase.mpr ⟨Ne.symm hab, hb⟩)]

theorem PState.draw_spec (g : ℕ → ℕ) {s : PState} (hInv : s.Inv)
    (hlt : s.numDrawn < s.n) :
    ∃ x s', s.draw g = .ok (x, s') ∧ s'.Inv ∧ x ∈ s.rem ∧
      s'.rem = s.rem.erase x ∧ s'.numDrawn = s.numDrawn + 1 ∧ s'.n = s.n := by
  obtain ⟨hBl, hSl, hbegin, hcover, hpop, hmask, htotal, hcard, hnd⟩ := hInv
  have htW : s.totalWeight = s.n - s.numDrawn := by
    rw [totalWeight_eq_range]; exact htotal
  have htot_pos : 0 < s.totalWeight := by omega
  have hge : ¬ s.numDrawn ≥ s.n := by omega
  set total := s.totalWeight with htotal_def
  set r := uniformInt g s.pos 0 (total - 1) with hr_def
  have hr_lt : r < total := by
    rw [hr_def, uniformInt]
    have h1 : total - 1 + 1 - 0 = total := by omega
    rw [h1, Nat.zero_add]
    exact Nat.mod_lt _ htot_pos
  have hr_lt' : r < ∑ q ∈ Finset.Icc 1 s.w, q * s.intervalSize.getD q 0 :=
    hr_lt
  set P := scanPop s.intervalSize s.w r with hP_def
  obtain ⟨hP1, hPw, hSZP⟩ := scanPop_spec hr_lt'
  set z := s.intervalSize.getD P 0 with hz_def
  have hz1 : 1 ≤ z := hSZP
  set loc := uniformInt g (s.pos + 1) 0 (z - 1) with hloc_def
  have hloc_lt : loc < z := by
    rw [hloc_def, uniformInt]
    have h1 : z - 1 + 1 - 0 = z := by omega
    rw [h1, Nat.zero_add]
    exact Nat.mod_lt _ (by omega)
  set b := s.intervalBegin.getD P 0 with hb_def
  set cellIdx := b + loc with hcellIdx_def
  have hwin_sub : ∀ p1 p2 : ℕ, p1 ≤ p2 →
      (∑ q ∈ Finset.range p1, s.intervalSize.getD q 0)
        ≤ ∑ q ∈ Finset.range p2, s.intervalSize.getD q 0 := by
    intro p1 p2 h12
    exact Finset.sum_le_sum_of_subset (Finset.range_subset.mpr h12)
  have hbP : b = ∑ q ∈ Finset.range P, s.intervalSize.getD q 0 := hbegin P hPw
  have hbz : b + z = ∑ q ∈ Finset.range (P + 1), s.intervalSize.getD q 0 := by
    rw [Finset.sum_range_succ, ← hbP]
  have hbz_le : b + z ≤ s.cells.length := by
    rw [hbz, ← hcover]
    exact hwin_sub (P + 1) (s.w + 1) (by omega)
  have hIdx_lt : cellIdx < s.cells.length := by omega
  set cell := s.cells.getD cellIdx default with hcell_def
  have hcellpop : popcount cell.mask = P := hpop P hPw loc hloc_lt
  set bitR := uniformInt g (s.pos + 2) 0 (P - 1) with hbitR_def
  have hbitR_lt : bitR < P := by
    rw [hbitR_def, uniformInt]
    have h1 : P - 1 + 1 - 0 = P := by omega
    rw [h1, Nat.zero_add]
    exact Nat.mod_lt _ (by omega)
  have hsblen : (setBits cell.mask).length = P := by
    rw [← popcount_eq_length, hcellpop]
  have hbitR_lt' : bitR < (setBits cell.mask).length := by omega
  have hsel : bitSelect cell.mask bitR
      = some ((setBits cell.mask).get ⟨bitR, hbitR_lt'⟩) := by
    rw [bitSelect_eq_getElem, List.getElem?_eq_getElem hbitR_lt']
    rfl
  set bitPos := (setBits cell.mask).get ⟨bitR, hbitR_lt'⟩ with hbitPos_def
  have hbitPos_mem : bitPos ∈ setBits cell.mask :=
    (setBits cell.mask).get_mem _ _
  set x := cell.base + bitPos with hx_def
  set cell' : PCell := { cell with mask := clearBit cell.mask bitPos }
    with hcell'_def
  set cells1 := s.cells.set cellIdx cell' with hcells1_def
  set cells2 := if cellIdx ≠ b then
      (cells1.set cellIdx (cells1.getD b default)).set b
        (cells1.getD cellIdx default)
    else cells1 with hcells2_def
  set z' := s.intervalSize.getD (P - 1) 0 with hz'_def
  set newB := s.intervalBegin.set P (b + 1) with hnewB_def
  set newSZ := (s.intervalSize.set P (z - 1)).set (P - 1) (z' + 1)
    with hnewSZ_def
  set s2 : PState :=
    { s with
      cells := cells2
      intervalBegin := newB
      intervalSize := newSZ
      numDrawn := s.numDrawn + 1
      pos := s.pos + 3 } with hs2_def
  -- the draw call evaluates to (x, s2)
  have hdraw : s.draw g = .ok (x, s2) := by
    simp only [PState.draw]
    rw [if_neg hge, if_neg (by omega : ¬ s.totalWeight = 0)]
    rw [← htotal_def, ← hr_def, ← hP_def, ← hz_def, ← hloc_def, ← hb_def,
      ← hcellIdx_def, ← hcell_def, ← hbitR_def, hsel]
  -- basic facts about the new arrays
  have hP_len : P < s.intervalSize.length := by rw [hSl]; omega
  have hP1_len : P - 1 < s.intervalSize.length := by omega
  have hPB_len : P < s.intervalBegin.length := by rw [hBl]; omega
  have hPne : P - 1 ≠ P := by omega
  have hnewSZ_P : newSZ.getD P 0 = z - 1 := by
    rw [hnewSZ_def, getD_set_ne _ _ hPne, getD_set_eq _ _ hP_len]
  have hnewSZ_P1 : newSZ.getD (P - 1) 0 = z' + 1 := by
    rw [hnewSZ_def, getD_set_eq _ _ (by rw [List.length_set]; exact hP1_len)]
  have hnewSZ_other : ∀ q, q ≠ P → q ≠ P - 1 →
      newSZ.getD q 0 = s.intervalSize.getD q 0 := by
    intro q h1 h2
    rw [hnewSZ_def, getD_set_ne _ _ (fun hc => h2 hc.symm),
      getD_set_ne _ _ (fun hc => h1 hc.symm)]
  have hnewB_P : newB.getD P 0 = b + 1 := by
    rw [hnewB_def, getD_set_eq _ _ hPB_len]
  have hnewB_other : ∀ q, q ≠ P →
      newB.getD q 0 = s.intervalBegin.getD q 0 := by
    intro q h1
    rw [hnewB_def, getD_set_ne _ _ (fun hc => h1 hc.symm)]
  -- partial sums of the new sizes
  have hsumA : ∀ p, p < P →
      (∑ q ∈ Finset.range p, newSZ.getD q 0)
        = ∑ q ∈ Finset.range p, s.intervalSize.getD q 0 := by
    intro p hp
    apply Finset.sum_congr rfl
    intro q hq
    have hq' := Finset.mem_range.mp hq
    exact hnewSZ_other q (by omega) (by omega)
  have hsumB : (∑ q ∈ Finset.range P, newSZ.getD q 0)
      = (∑ q ∈ Finset.range P, s.intervalSize.getD q 0) + 1 := by
    have hmem : P - 1 ∈ Finset.range P := Finset.mem_range.mpr (by omega)
    rw [← Finset.add_sum_erase _ (fun q => newSZ.getD q 0) hmem,
      ← Finset.add_sum_erase _ (fun q => s.intervalSize.getD q 0) hmem]
    have hcongr : ∀ q ∈ (Finset.range P).erase (P - 1),
        newSZ.getD q 0 = s.intervalSize.getD q 0 := by
      intro q hq
      have h1 := Finset.ne_of_mem_erase hq
      have h2 := Finset.mem_range.mp (Finset.mem_of_mem_erase hq)
      exact hnewSZ_other q (by omega) h1
    rw [Finset.sum_congr rfl hcongr, hnewSZ_P1]
    omega
  have hsumC : ∀ p, P < p →
      (∑ q ∈ Finset.range p, newSZ.getD q 0)
        = ∑ q ∈ Finset.range p, s.intervalSize.getD q 0 := by
    intro p hp
    have hmemP : P ∈ Finset.range p := Finset.mem_range.mpr (by omega)
    have hmemP1 : P - 1 ∈ Finset.range p := Finset.mem_range.mpr (by omega)
    rw [sum_peel_two (fun q => newSZ.getD q 0) hPne hmemP1 hmemP,
      sum_peel_two (fun q => s.intervalSize.getD q 0) hPne hmemP1 hmemP]
    have hcongr : ∀ q ∈ ((Finset.range p).erase (P - 1)).erase P,
        newSZ.getD q 0 = s.intervalSize.getD q 0 := by
      intro q hq
      have h1 := Finset.ne_of_mem_erase hq
      have h2 := Finset.ne_of_mem_erase (Finset.mem_of_mem_erase hq)
      exact hnewSZ_other q h1 h2
    rw [Finset.sum_congr rfl hcongr, hnewSZ_P1, hnewSZ_P]
    omega
  -- description of the swapped cell list
  have hlen1 : cells1.length = s.cells.length := by
    rw [hcells1_def, List.length_set]
  have hlen2 : cells2.length = s.cells.length := by
    rw [hcells2_def]
    split
    · rw [List.length_set, List.length_set, hlen1]
    · exact hlen1
  have hcells1_getD_idx : cells1.getD cellIdx default = cell' := by
    rw [hcells1_def]
    exact getD_set_eq _ _ hIdx_lt
  have hcells2_getD : ∀ j, j < s.cells.length →
      cells2.getD j default =
        if j = b then cell'
        else if j = cellIdx then s.cells.getD b default
        else s.cells.getD j default := by
    intro j hj
    rw [hcells2_def]
    by_cases hne : cellIdx ≠ b
    · rw [if_pos hne]
      by_cases hjb : j = b
      · subst hjb
        rw [getD_set_eq _ _ (by rw [List.length_set, hlen1]; omega),
          hcells1_getD_idx, if_pos rfl]
      · rw [getD_set_ne _ _ (fun hc => hjb hc.symm)]
        by_cases hjc : j = cellIdx
        · subst hjc
          rw [getD_set_eq _ _ (by rw [hlen1]; exact hIdx_lt),
            hcells1_def, getD_set_ne _ _ hne,
            if_neg hjb, if_pos rfl]
        · rw [getD_set_ne _ _ (fun hc => hjc hc.symm), hcells1_def,
            getD_set_ne _ _ (fun hc => hjc hc.symm), if_neg hjb, if_neg hjc]
    · push_neg at hne
      rw [if_neg (by omega), hcells1_def]
      by_cases hjb : j = b
      · subst hjb
        rw [← hne, getD_set_eq _ _ hIdx_lt, if_pos rfl]
      · rw [getD_set_ne _ _ (fun hc => hjb (hne ▸ hc.symm)), if_neg hjb,
          if_neg (by omega)]
  -- the drawn element and its cell
  have hcell_mem : cell ∈ s.cells := by
    rw [hcell_def]
    exact getD_mem default hIdx_lt
  set f : PCell → Multiset ℕ := fun c =>
    (((setBits c.mask).map (fun p => c.base + p) : List ℕ) : Multiset ℕ)
    with hf_def
  have hrem_s : s.rem = (s.cells.map f).sum := rfl
  have hx_mem_comp : x ∈ f cell := by
    rw [hf_def]
    exact Multiset.mem_coe.mpr (List.mem_map.mpr ⟨bitPos, hbitPos_mem, rfl⟩)
  have hx_mem : x ∈ s.rem := by
    rw [hrem_s]
    exact mem_msum_of_mem f s.cells cell hcell_mem x hx_mem_comp
  have hcomp_cell' : f cell' = (f cell).erase x := by
    rw [hf_def]
    show (((setBits (clearBit cell.mask bitPos)).map
      (fun p => cell.base + p) : List ℕ) : Multiset ℕ) = _
    rw [setBits_clearBit hbitPos_mem,
      List.map_erase (fun p q h => by
        have h' : cell.base + p = cell.base + q := h
        omega : Function.Injective (fun p => cell.base + p))]
    exact Multiset.coe_erase _ _
  have hcons : f cell = x ::ₘ f cell' := by
    rw [hcomp_cell']
    exact (Multiset.cons_erase hx_mem_comp).symm
  have hrem1 : (cells1.map f).sum + f cell = (s.cells.map f).sum + f cell' := by
    have := msum_set f s.cells cellIdx hIdx_lt cell'
    rw [← hcell_def] at this
    exact this
  have hrem2_eq : (cells2.map f).sum = (cells1.map f).sum := by
    rw [hcells2_def]
    split
    · rename_i hne
      set b1 := cells1.getD b default with hb1_def
      set a1 := cells1.getD cellIdx default with ha1_def
      have hb_lt1 : b < cells1.length := by rw [hlen1]; omega
      have hIdx_lt1 : cellIdx < cells1.length := by rw [hlen1]; omega
      have hE2 := msum_set f cells1 cellIdx hIdx_lt1 b1
      have hE3 := msum_set f (cells1.set cellIdx b1) b
        (by rw [List.length_set]; exact hb_lt1) a1
      have hmid : (cells1.set cellIdx b1).getD b default = b1 := by
        rw [getD_set_ne _ _ hne]
      rw [hmid] at hE3
      rw [← ha1_def] at hE2
      have := hE3.trans (by rw [hE2])
      exact add_right_cancel this
    · rfl
  have hrem_s2 : s2.rem = s.rem.erase x := by
    have hcalc : (cells2.map f).sum + f cell' = s.rem.erase x + f cell' := by
      rw [hrem2_eq]
      have h1 : (cells1.map f).sum + f cell
          = (x ::ₘ (cells1.map f).sum) + f cell' := by
        rw [hcons, Multiset.add_cons, Multiset.cons_add]
      have h2 : (x ::ₘ (cells1.map f).sum) + f cell'
          = (s.cells.map f).sum + f cell' := by
        rw [← h1, hrem1]
      have h3 : x ::ₘ (cells1.map f).sum = (s.cells.map f).sum :=
        add_right_cancel h2
      have h4 : ((s.cells.map f).sum).erase x = (cells1.map f).sum := by
        rw [← h3, Multiset.erase_cons_head]
      rw [hrem_s, h4]
    have := add_right_cancel hcalc
    exact this
  refine ⟨x, s2, hdraw, ?_, hx_mem, hrem_s2, rfl, rfl⟩
  -- the invariant for s2
  have hpop_cell' : popcount cell'.mask = P - 1 := by
    show popcount (clearBit cell.mask bitPos) = P - 1
    rw [popcount_eq_length, setBits_clearBit hbitPos_mem,
      List.length_erase_of_mem hbitPos_mem, ← popcount_eq_length, hcellpop]
  refine ⟨?_, ?_, ?_, ?_, ?_, ?_, ?_, ?_, ?_⟩
  · show newB.length = s.w + 1
    rw [hnewB_def, List.length_set, hBl]
  · show newSZ.length = s.w + 1
    rw [hnewSZ_def, List.length_set, List.length_set, hSl]
  · -- prefix-sum property
    intro p hp
    replace hp : p ≤ s.w := hp
    show newB.getD p 0 = ∑ q ∈ Finset.range p, newSZ.getD q 0
    rcases Nat.lt_trichotomy p P with hcase | hcase | hcase
    · rw [hnewB_other p (by omega), hsumA p hcase]
      exact hbegin p hp
    · subst hcase
      rw [hnewB_P, hsumB, ← hbP]
    · rw [hnewB_other p (by omega), hsumC p hcase]
      exact hbegin p hp
  · -- sizes cover the cells
    show (∑ p ∈ Finset.range (s.w + 1), newSZ.getD p 0) = cells2.length
    rw [hsumC (s.w + 1) (by omega), hcover, hlen2]
  · -- population layout
    intro p hp k hk
    replace hp : p ≤ s.w := hp
    replace hk : k < newSZ.getD p 0 := hk
    show popcount ((cells2.getD (newB.getD p 0 + k) default).mask) = p
    by_cases hpP : p = P
    · subst hpP
      rw [hnewSZ_P] at hk
      rw [hnewB_P]
      have hjlt : b + 1 + k < s.cells.length := by omega
      rw [hcells2_getD _ hjlt]
      by_cases hjc : b + 1 + k = cellIdx
      · rw [if_neg (by omega), if_pos hjc]
        have h0 := hpop P hPw 0 (by omega)
        rw [Nat.add_zero] at h0
        exact h0
      · rw [if_neg (by omega), if_neg hjc]
        have hk1 : 1 + k < z := by omega
        have := hpop P hPw (1 + k) hk1
        rw [← Nat.add_assoc] at this
        exact this
    · by_cases hpP1 : p = P - 1
      · subst hpP1
        rw [hnewSZ_P1] at hk
        rw [hnewB_other (P - 1) hpP]
        have hbsum : s.intervalBegin.getD (P - 1) 0 + z' = b := by
          have h1 := hbegin (P - 1) (by omega)
          have h2 : P - 1 + 1 = P := by omega
          rw [hbP, h1, hz'_def]
          rw [← Finset.sum_range_succ (fun q => s.intervalSize.getD q 0)
            (P - 1), h2]
        by_cases hkz : k = z'
        · subst hkz
          have hjb : s.intervalBegin.getD (P - 1) 0 + z' = b := hbsum
          rw [hjb]
          rw [hcells2_getD b (by omega), if_pos rfl, hpop_cell']
        · have hklt : k < z' := by omega
          have hjlt : s.intervalBegin.getD (P - 1) 0 + k < b := by omega
          rw [hcells2_getD _ (by omega), if_neg (by omega),
            if_neg (by omega)]
          exact hpop (P - 1) (by omega) k hklt
      · -- p untouched
        rw [hnewSZ_other p hpP hpP1] at hk
        rw [hnewB_other p hpP]
        have hj := s.intervalBegin.getD p 0 + k
        rcases Nat.lt_or_ge p P with hplt | hpge
        · have hjub : s.intervalBegin.getD p 0 + k + 1
              ≤ ∑ q ∈ Finset.range (p + 1), s.intervalSize.getD q 0 := by
            rw [Finset.sum_range_succ, ← hbegin p hp]
            omega
          have hjb : s.intervalBegin.getD p 0 + k < b := by
            rw [hbP]
            have := hwin_sub (p + 1) P (by omega)
            omega
          rw [hcells2_getD _ (by omega), if_neg (by omega),
            if_neg (by omega)]
          exact hpop p hp k hk
        · have hpgt : P < p := by omega
          have hjlb : b + z ≤ s.intervalBegin.getD p 0 := by
            rw [hbz, hbegin p hp]
            exact hwin_sub (P + 1) p (by omega)
          have hjlt : s.intervalBegin.getD p 0 + k < s.cells.length := by
            have h1 := hbegin p hp
            have h2 : (∑ q ∈ Finset.range (p + 1), s.intervalSize.getD q 0)
                ≤ s.cells.length := by
              rw [← hcover]
              exact hwin_sub (p + 1) (s.w + 1) (by omega)
            rw [Finset.sum_range_succ] at h2
            omega
          rw [hcells2_getD _ hjlt, if_neg (by omega), if_neg (by omega)]
          exact hpop p hp k hk
  · -- masks stay below 2^w
    intro c hc
    show c.mask < 2 ^ s.w
    have hmem2 : c ∈ cells2 := hc
    rw [hcells2_def] at hmem2
    have hmask1 : ∀ d ∈ cells1, d.mask < 2 ^ s.w := by
      intro d hd
      rw [hcells1_def] at hd
      rcases List.mem_or_eq_of_mem_set hd with h | h
      · exact hmask d h
      · subst h
        show clearBit cell.mask bitPos < 2 ^ s.w
        have := clearBit_le cell.mask bitPos
        have := hmask cell hcell_mem
        omega
    split at hmem2
    · rcases List.mem_or_eq_of_mem_set hmem2 with h | h
      · rcases List.mem_or_eq_of_mem_set h with h2 | h2
        · exact hmask1 c h2
        · subst h2
          exact hmask1 _ (getD_mem default (by rw [hlen1]; omega))
      · subst h
        exact hmask1 _ (getD_mem default (by rw [hlen1]; exact hIdx_lt))
    · exact hmask1 c hmem2
  · -- total weight decreases by one
    show (∑ p ∈ Finset.range (s.w + 1), p * newSZ.getD p 0)
      = s.n - (s.numDrawn + 1)
    have hmemP : P ∈ Finset.range (s.w + 1) := Finset.mem_range.mpr (by omega)
    have hmemP1 : P - 1 ∈ Finset.range (s.w + 1) :=
      Finset.mem_range.mpr (by omega)
    rw [sum_peel_two (fun p => p * newSZ.getD p 0) hPne hmemP1 hmemP]
    have hold : (∑ p ∈ Finset.range (s.w + 1), p * s.intervalSize.getD p 0)
        = (P - 1) * z' + P * z
          + ∑ q ∈ ((Finset.range (s.w + 1)).erase (P - 1)).erase P,
            q * s.intervalSize.getD q 0 :=
      sum_peel_two (fun p => p * s.intervalSize.getD p 0) hPne hmemP1 hmemP
    have hcongr : ∀ q ∈ ((Finset.range (s.w + 1)).erase (P - 1)).erase P,
        q * newSZ.getD q 0 = q * s.intervalSize.getD q 0 := by
      intro q hq
      have h1 := Finset.ne_of_mem_erase hq
      have h2 := Finset.ne_of_mem_erase (Finset.mem_of_mem_erase hq)
      rw [hnewSZ_other q h1 h2]
    rw [Finset.sum_congr rfl hcongr, hnewSZ_P1, hnewSZ_P]
    rw [htotal] at hold
    have hm1 : P * z = P * (z - 1) + P := by
      have hzz : z = (z - 1) + 1 := by omega
      calc P * z = P * ((z - 1) + 1) := by rw [← hzz]
        _ = P * (z - 1) + P := by ring
    have hm2 : (P - 1) * (z' + 1) = (P - 1) * z' + (P - 1) := by ring
    omega
  · -- remaining count
    show Multiset.card s2.rem = s.n - (s.numDrawn + 1)
    rw [hrem_s2, Multiset.card_erase_of_mem hx_mem, hcard]
    simp only [Nat.pred_eq_sub_one]
    omega
  · show s.numDrawn + 1 ≤ s.n
    omega

theorem PState.draw_exhausted_p (g : ℕ → ℕ) {s : PState}
    (h : s.numDrawn ≥ s.n) : s.draw g = .error .exhausted := by
  rw [PState.draw, if_pos h]

theorem PState.draw_step_p (g : ℕ → ℕ) {s : PState} {x : ℕ} {s' : PState}
    (hP : s.Inv) (h : s.draw g = .ok (x, s')) :
    s'.Inv ∧ x ∈ s.rem ∧ s'.rem = s.rem.erase x := by
  by_cases hge : s.numDrawn ≥ s.n
  · rw [PState.draw_exhausted_p g hge] at h; cases h
  · obtain ⟨x0, s0, hok, hI, hmem, herase, _, _⟩ :=
      PState.draw_spec g hP (by omega)
    rw [hok] at h
    cases h
    exact ⟨hI, hmem, herase⟩

theorem PState.draw_count_p (g : ℕ → ℕ) {s : PState} {x : ℕ} {s' : PState}
    (h : s.draw g = .ok (x, s')) :
    s'.numDrawn = s.numDrawn + 1 ∧ s'.n = s.n := by
  simp only [PState.draw] at h
  split at h
  · cases h
  · split at h
    · cases h
    · split at h
      · cases h
      · cases h
        exact ⟨rfl, rfl⟩

/-- States of `PerfectDealer` reachable by `reset` and successful draws. -/
inductive PReach (g : ℕ → ℕ) : PState → Prop where
  | reset (n pos : ℕ) : PReach g (PState.reset n pos)
  | draw {s s' : PState} {x : ℕ} :
      PReach g s → s.draw g = .ok (x, s') → PReach g s'

theorem PReach_inv {g : ℕ → ℕ} {s : PState} (h : PReach g s) :
    s.Inv ∧ s.rem.Nodup := by
  induction h with
  | reset n pos =>
    refine ⟨PState.reset_Inv_p n pos, ?_⟩
    rw [PState.reset_rem_p]
    exact Multiset.coe_nodup.mpr (List.nodup_range n)
  | draw hr hok ih =>
    obtain ⟨hInv, hnd⟩ := ih
    obtain ⟨hInv', _, herase⟩ := PState.draw_step_p _ hInv hok
    refine ⟨hInv', ?_⟩
    rw [herase]
    exact Multiset.nodup_of_le (Multiset.erase_le _ _) hnd

theorem ATState.draw_exhausted_at (g : ℕ → ℕ) (fuel : ℕ) {s : ATState}
    (h : s.numDrawn ≥ s.n) : s.draw g fuel = .error .exhausted := by
  rw [ATState.draw, if_pos h]

/-- A property preserved by every successful `step` is preserved by
`drawN`. -/
theorem drawN_pres {σ : Type} (step : σ → Except DealerErr (ℕ × σ))
    (P : σ → Prop)
    (hstep : ∀ s x s', P s → step s = .ok (x, s') → P s') :
    ∀ (k : ℕ) (s : σ) (l : List ℕ) (s' : σ), P s →
      drawN step k s = .ok (l, s') → P s' := by
  intro k
  induction k with
  | zero =>
    intro s l s' hP h
    simp only [drawN] at h
    cases h
    exact hP
  | succ k ih =>
    intro s l s' hP h
    simp only [drawN] at h
    split at h
    · cases h
    · rename_i p x t hs
      split at h
      · cases h
      · rename_i q l2 s2 hrec
        cases h
        exact ih t l2 s' (hstep s x t hP hs) hrec

-- ---------------------------------------------------------------------------
-- ShuffleGuessGame (envs/shuffle_guess/game.py)
-- ---------------------------------------------------------------------------

/-- `NUM_TYPES` (cards.py): 52 card types. -/
def NUM_TYPES : ℕ := 52

/-- The game's `action_mode` configuration key (`"type"` or `"id"`). -/
inductive ActionMode where
  | type
  | id
  deriving DecidableEq, Repr

/-- State of `ShuffleGuessGame` over a dealer-state type `σ` (fields
`_n`, `_action_mode`, `_dealer`, `_t`, `_counts`, `_score`, `_drawn_ids`,
`_last_drawn_id`, `_done`). -/
structure GameState (σ : Type) where
  n : ℕ
  actionMode : ActionMode
  dealer : σ
  t : ℕ
  counts : List ℕ
  score : ℕ
  drawnIds : List ℕ
  lastDrawnId : Option ℕ
  done : Bool

/-- `ShuffleGuessGame.init_game()` given an already-reset dealer state
`d` (the dealer's own `reset` is modelled by each dealer's `reset`). -/
def GameState.init {σ : Type} (n : ℕ) (mode : ActionMode) (d : σ) :
    GameState σ :=
  { n := n, actionMode := mode, dealer := d, t := 0
    counts := List.replicate NUM_TYPES 0, score := 0, drawnIds := []
    lastDrawnId := none, done := false }

/-- `ShuffleGuessGame.step(action)`: the dealer draws `drawn_id`, the
guess is scored against `drawn_id % NUM_TYPES`, the histogram, history
and turn counter are updated, and the episode ends once `t ≥ n`.  The
`action_mode` field is carried in the state but — exactly as in the
source — never consulted here. -/
def GameState.step {σ : Type} (draw : σ → Except DealerErr (ℕ × σ))
    (action : ℕ) (s : GameState σ) : Except DealerErr (GameState σ) :=
  if s.done then .error .episodeOver
  else
    match draw s.dealer with
    | .error e => .error e
    | .ok (drawnId, d') =>
      let drawnType := drawnId % NUM_TYPES
      .ok
        { s with
          dealer := d'
          score := if action = drawnType then s.score + 1 else s.score
          counts := s.counts.set drawnType (s.counts.getD drawnType 0 + 1)
          drawnIds := s.drawnIds ++ [drawnId]
          lastDrawnId := some drawnId
          t := s.t + 1
          done := decide (s.n ≤ s.t + 1) }

/-- The scoring rule as the specification words it: in `"type"` mode the
guess is compared with `id % 52`, in `"id"` mode with the raw id.  (This
definition follows the specification's words, to be compared with the
code's `GameState.step`.) -/
def specScoreCond (mode : ActionMode) (action drawnId : ℕ) : Prop :=
  match mode with
  | .type => action = drawnId % NUM_TYPES
  | .id => action = drawnId

-- ---------------------------------------------------------------------------
-- peek_next_distribution sums to one (helpers for C3)
-- ---------------------------------------------------------------------------

theorem snd_sum_map {α : Type} (l : List α) (f : α → ℕ) (c : ℚ) :
    ((l.map (fun a => (f a, c))).map Prod.snd).sum = l.length * c := by
  induction l with
  | nil => simp
  | cons a t ih =>
    simp only [List.map_cons, List.sum_cons, ih, List.length_cons]
    push_cast
    ring

theorem natCast_mul_one_div (k : ℕ) (hk : k ≠ 0) :
    (k : ℚ) * (1 / (k : ℚ)) = 1 := by
  rw [one_div, mul_inv_cancel₀ (Nat.cast_ne_zero.mpr hk)]

theorem FYState.peek_spec_fy {g : ℕ → ℕ} {s : FYState} (h : FYReach g s) :
    (s.peek = none ↔ s.numDrawn = s.n) ∧
    (∀ l, s.peek = some l → (l.map Prod.snd).sum = (1 : ℚ)) := by
  obtain ⟨⟨hlen, hrn⟩, _⟩ := FYReach_inv h
  constructor
  · constructor
    · intro hnone
      by_cases hrem : s.n - s.numDrawn = 0
      · omega
      · rw [FYState.peek] at hnone
        rw [if_neg hrem] at hnone
        simp at hnone
    · intro heq
      rw [FYState.peek]
      simp [heq]
  · intro l hl
    rw [FYState.peek] at hl
    by_cases hrem : s.n - s.numDrawn = 0
    · rw [if_pos hrem] at hl
      simp at hl
    · rw [if_neg hrem] at hl
      cases hl
      rw [snd_sum_map (s.array.take s.remaining) (fun c => c) (1 / (s.n - s.numDrawn : ℕ))]
      have hlen' : (s.array.take s.remaining).length = s.remaining := by
        rw [List.length_take]
        omega
      rw [hlen']
      have hr : s.remaining = s.n - s.numDrawn := by omega
      rw [hr]
      exact natCast_mul_one_div _ hrem

theorem BMState.peek_spec_bm {g : ℕ → ℕ} {s : BMState} (h : BMReach g s) :
    (s.peek = none ↔ s.numDrawn = s.n) ∧
    (∀ l, s.peek = some l → (l.map Prod.snd).sum = (1 : ℚ)) := by
  obtain ⟨⟨hlen, hnle, hcard⟩, _⟩ := BMReach_inv h
  constructor
  · constructor
    · intro hnone
      by_cases hrem : s.n - s.numDrawn = 0
      · omega
      · rw [BMState.peek] at hnone
        rw [if_neg hrem] at hnone
        simp at hnone
    · intro heq
      rw [BMState.peek]
      simp [heq]
  · intro l hl
    rw [BMState.peek] at hl
    by_cases hrem : s.n - s.numDrawn = 0
    · rw [if_pos hrem] at hl
      simp at hl
    · rw [if_neg hrem] at hl
      cases hl
      rw [snd_sum_map _ (fun i => i) (1 / (s.n - s.numDrawn : ℕ))]
      have hflen : ((List.range s.n).filter
          (fun i => s.available.getD i false)).length = s.n - s.numDrawn := by
        have := hcard
        rw [BMState.rem, Multiset.coe_card] at this
        exact this
      rw [hflen]
      exact natCast_mul_one_div _ hrem

theorem ATState.peek_spec_at {g : ℕ → ℕ} {s : ATState} (h : ATReach g s) :
    (s.peek = none ↔ s.numDrawn = s.n) ∧
    (∀ l, s.peek = some l → (l.map Prod.snd).sum = (1 : ℚ)) := by
  obtain ⟨⟨hA, hF⟩, _⟩ := ATReach_inv h
  have hle : s.numDrawn ≤ s.n := by
    cases hph : s.phaseAdaptive with
    | true =>
      obtain ⟨hd, _, _, _, _, _, _, _, _, _, hbound⟩ := hA hph
      rcases hbound with h0 | hb <;> omega
    | false =>
      obtain ⟨hfr, _⟩ := hF hph
      omega
  constructor
  · constructor
    · intro hnone
      by_contra hne
      have hlt : s.numDrawn < s.n := by omega
      have hrem : ¬ (s.n - s.numDrawn = 0) := by omega
      rw [ATState.peek, if_neg hrem] at hnone
      cases hph : s.phaseAdaptive with
      | false =>
        obtain ⟨hfr, hfl⟩ := hF hph
        rw [hph] at hnone
        simp only [if_pos] at hnone
        rw [if_neg (show ¬ s.finalRemaining = 0 by omega)] at hnone
        simp at hnone
      | true =>
        obtain ⟨i, hi, h1, h2⟩ := AInv_drawable_peek (hA hph) hlt
        have hmem : i ∈ s.drawableIndices := by
          rw [ATState.drawableIndices]
          refine List.mem_filter.mpr ⟨List.mem_range.mpr hi, ?_⟩
          simp only [decide_eq_true_eq]
          exact ⟨h1, h2⟩
        have hne' : s.drawableIndices.isEmpty = false := by
          cases he : s.drawableIndices with
          | nil => rw [he] at hmem; cases hmem
          | cons a t => rfl
        rw [hph] at hnone
        simp only [Bool.true_eq_false, if_false] at hnone
        simp [hne'] at hnone
    · intro heq
      rw [ATState.peek]
      simp [heq]
  · intro l hl
    rw [ATState.peek] at hl
    by_cases hrem : s.n - s.numDrawn = 0
    · rw [if_pos hrem] at hl
      simp at hl
    · rw [if_neg hrem] at hl
      have hlt : s.numDrawn < s.n := by omega
      cases hph : s.phaseAdaptive with
      | false =>
        obtain ⟨hfr, hfl⟩ := hF hph
        rw [hph] at hl
        simp only [if_pos] at hl
        rw [if_neg (show ¬ s.finalRemaining = 0 by omega)] at hl
        cases hl
        rw [snd_sum_map _ (fun c => c) _]
        have hlen' : (s.finalCards.take s.finalRemaining).length
            = s.finalRemaining := by
          rw [List.length_take]
          omega
        rw [hlen']
        exact natCast_mul_one_div _ (by omega)
      | true =>
        obtain ⟨i, hi, h1, h2⟩ := AInv_drawable_peek (hA hph) hlt
        have hmem : i ∈ s.drawableIndices := by
          rw [ATState.drawableIndices]
          refine List.mem_filter.mpr ⟨List.mem_range.mpr hi, ?_⟩
          simp only [decide_eq_true_eq]
          exact ⟨h1, h2⟩
        have hne' : s.drawableIndices.isEmpty = false := by
          cases he : s.drawableIndices with
          | nil => rw [he] at hmem; cases hmem
          | cons a t => rfl
        rw [hph] at hl
        simp only [Bool.true_eq_false, if_false, hne', Bool.false_eq_true] at hl
        cases hl
        rw [snd_sum_map _ (fun i => s.topCard i) _]
        have hlen0 : s.drawableIndices.length ≠ 0 := by
          intro h0
          rw [List.length_eq_zero] at h0
          rw [h0] at hmem
          cases hmem
        exact natCast_mul_one_div _ hlen0

theorem list_sum_natCast (f : PCell → ℕ) :
    ∀ l : List PCell, (l.map (fun c => (f c : ℚ))).sum = (((l.map f).sum : ℕ) : ℚ) := by
  intro l
  induction l with
  | nil => simp
  | cons a t ih => simp [ih]

theorem flatMap_snd_sum (c0 : ℚ) :
    ∀ cells : List PCell,
      ((cells.flatMap (fun c => (setBits c.mask).map (fun p => (c.base + p, c0)))).map
        Prod.snd).sum
        = (cells.map (fun c => ((setBits c.mask).length : ℚ))).sum * c0 := by
  intro cells
  induction cells with
  | nil => simp
  | cons a t ih =>
    simp only [List.flatMap_cons, List.map_append, List.sum_append, ih,
      List.map_cons, List.sum_cons]
    rw [snd_sum_map (setBits a.mask) (fun p => a.base + p) c0]
    ring

theorem PState.card_rem_eq (s : PState) :
    Multiset.card s.rem = (s.cells.map (fun c => (setBits c.mask).length)).sum := by
  rw [PState.rem, card_list_msum]
  simp

theorem PState.peek_spec_p {g : ℕ → ℕ} {s : PState} (h : PReach g s) :
    (s.peek = none ↔ s.numDrawn = s.n) ∧
    (∀ l, s.peek = some l → (l.map Prod.snd).sum = (1 : ℚ)) := by
  obtain ⟨⟨hBl, hSl, hbegin, hcover, hpop, hmask, htotal, hcard, hnd⟩, _⟩ :=
    PReach_inv h
  constructor
  · constructor
    · intro hnone
      by_cases hrem : s.n - s.numDrawn = 0
      · omega
      · rw [PState.peek, if_neg hrem] at hnone
        simp at hnone
    · intro heq
      rw [PState.peek]
      simp [heq]
  · intro l hl
    rw [PState.peek] at hl
    by_cases hrem : s.n - s.numDrawn = 0
    · rw [if_pos hrem] at hl
      simp at hl
    · rw [if_neg hrem] at hl
      cases hl
      rw [flatMap_snd_sum, list_sum_natCast (fun c => (setBits c.mask).length),
        ← PState.card_rem_eq, hcard]
      exact natCast_mul_one_div _ hrem

-- ---------------------------------------------------------------------------
-- Claim theorems
-- ---------------------------------------------------------------------------

/-- C1: for every dealer (FisherYates, Bitmap, AdaptiveThreshold, Perfect),
every `n` and every random-source state, the sequence of `n` values returned
by successful `draw()`s after `reset(n, rng)` is a permutation of
`{0, …, n-1}`. -/
theorem claim_C1 (g : ℕ → ℕ) (n pos mBits fuel : ℕ) :
    (∀ l s', drawN (FYState.draw g) n (FYState.reset n pos) = .ok (l, s') →
      (l : Multiset ℕ) = ((List.range n : List ℕ) : Multiset ℕ)) ∧
    (∀ l s', drawN (BMState.draw g fuel) n (BMState.reset n pos) = .ok (l, s') →
      (l : Multiset ℕ) = ((List.range n : List ℕ) : Multiset ℕ)) ∧
    (∀ l s', drawN (ATState.draw g fuel) n (ATState.reset n pos mBits) = .ok (l, s') →
      (l : Multiset ℕ) = ((List.range n : List ℕ) : Multiset ℕ)) ∧
    (∀ l s', drawN (PState.draw g) n (PState.reset n pos) = .ok (l, s') →
      (l : Multiset ℕ) = ((List.range n : List ℕ) : Multiset ℕ)) := by
  refine ⟨?_, ?_, ?_, ?_⟩
  · intro l s' hok
    exact drawN_perm (FYState.draw g) FYState.Inv FYState.rem
      (fun s x t hP h => FYState.draw_step_fy g hP h)
      (FYState.reset_Inv_fy n pos) (FYState.reset_rem_fy n pos) hok
  · intro l s' hok
    exact drawN_perm (BMState.draw g fuel) BMState.Inv BMState.rem
      (fun s x t hP h => BMState.draw_step_bm g fuel hP h)
      (BMState.reset_Inv_bm n pos) (BMState.reset_rem_bm n pos) hok
  · intro l s' hok
    exact drawN_perm (ATState.draw g fuel) ATState.Inv ATState.rem
      (fun s x t hP h => ATState.draw_step_at g fuel hP h)
      (ATState.reset_Inv_at n pos mBits) (ATState.reset_rem_at n pos mBits) hok
  · intro l s' hok
    exact drawN_perm (PState.draw g) PState.Inv PState.rem
      (fun s x t hP h => PState.draw_step_p g hP h)
      (PState.reset_Inv_p n pos) (PState.reset_rem_p n pos) hok

/-- C4: for every dealer, after `reset` followed by `n` successful draws
the next call to `draw()` fails with the *Exhausted* error. -/
theorem claim_C4 (g : ℕ → ℕ) (n pos mBits fuel fuel2 : ℕ) :
    (∀ l s', drawN (FYState.draw g) n (FYState.reset n pos) = .ok (l, s') →
      s'.draw g = .error .exhausted) ∧
    (∀ l s', drawN (BMState.draw g fuel) n (BMState.reset n pos) = .ok (l, s') →
      s'.draw g fuel2 = .error .exhausted) ∧
    (∀ l s', drawN (ATState.draw g fuel) n (ATState.reset n pos mBits) = .ok (l, s') →
      s'.draw g fuel2 = .error .exhausted) ∧
    (∀ l s', drawN (PState.draw g) n (PState.reset n pos) = .ok (l, s') →
      s'.draw g = .error .exhausted) := by
  refine ⟨?_, ?_, ?_, ?_⟩
  · intro l s' hok
    have hc := drawN_count (FYState.draw g) (fun s => s.numDrawn)
      (fun s x t h => (FYState.draw_count_fy g h).1) n _ l s' hok
    have hn := drawN_pres (FYState.draw g) (fun s => s.n = n)
      (fun s x t hP h => ((FYState.draw_count_fy g h).2.1).trans hP) n _ l s' rfl hok
    have h0 : (FYState.reset n pos).numDrawn = 0 := rfl
    have hc' : s'.numDrawn = (FYState.reset n pos).numDrawn + n := hc
    have hn' : s'.n = n := hn
    exact FYState.draw_exhausted_fy g (by omega)
  · intro l s' hok
    have hc := drawN_count (BMState.draw g fuel) (fun s => s.numDrawn)
      (fun s x t h => (BMState.draw_count_bm g fuel h).1) n _ l s' hok
    have hn := drawN_pres (BMState.draw g fuel) (fun s => s.n = n)
      (fun s x t hP h => ((BMState.draw_count_bm g fuel h).2).trans hP) n _ l s' rfl hok
    have h0 : (BMState.reset n pos).numDrawn = 0 := rfl
    have hc' : s'.numDrawn = (BMState.reset n pos).numDrawn + n := hc
    have hn' : s'.n = n := hn
    exact BMState.draw_exhausted_bm g fuel2 (by omega)
  · intro l s' hok
    have hc := drawN_count (ATState.draw g fuel) (fun s => s.numDrawn)
      (fun s x t h => (ATState.draw_count_at g fuel h).1) n _ l s' hok
    have hn := drawN_pres (ATState.draw g fuel) (fun s => s.n = n)
      (fun s x t hP h => ((ATState.draw_count_at g fuel h).2).trans hP) n _ l s' rfl hok
    have h0 : (ATState.reset n pos mBits).numDrawn = 0 := rfl
    have hc' : s'.numDrawn = (ATState.reset n pos mBits).numDrawn + n := hc
    have hn' : s'.n = n := hn
    exact ATState.draw_exhausted_at g fuel2 (by omega)
  · intro l s' hok
    have hc := drawN_count (PState.draw g) (fun s => s.numDrawn)
      (fun s x t h => (PState.draw_count_p g h).1) n _ l s' hok
    have hn := drawN_pres (PState.draw g) (fun s => s.n = n)
      (fun s x t hP h => ((PState.draw_count_p g h).2).trans hP) n _ l s' rfl hok
    have h0 : (PState.reset n pos).numDrawn = 0 := rfl
    have hc' : s'.numDrawn = (PState.reset n pos).numDrawn + n := hc
    have hn' : s'.n = n := hn
    exact PState.draw_exhausted_p g (by omega)

/-- C7: `PerfectDealer.draw` fails with the *Inconsistent* error when the
prefix-sum total is `0` before exhaustion, and on every reachable state
with `num_drawn < n` the total equals `remaining > 0`, so the branch is
unreachable. -/
theorem claim_C7 (g : ℕ → ℕ) :
    (∀ s : PState, s.numDrawn < s.n → s.totalWeight = 0 →
      s.draw g = .error .inconsistent) ∧
    (∀ s : PState, PReach g s → s.numDrawn < s.n →
      s.totalWeight = s.n - s.numDrawn ∧ 0 < s.totalWeight) := by
  constructor
  · intro s hlt h0
    rw [PState.draw, if_neg (show ¬ s.numDrawn ≥ s.n by omega)]
    simp [h0]
  · intro s hs hlt
    obtain ⟨⟨hBl, hSl, hbegin, hcover, hpop, hmask, htotal, hcard, hnd⟩, _⟩ :=
      PReach_inv hs
    have htW : s.totalWeight = s.n - s.numDrawn := by
      rw [totalWeight_eq_range]
      exact htotal
    exact ⟨htW, by omega⟩

/-- C6: on every reachable `PerfectDealer` state (after `reset` and after
every draw), `Σ_p p · interval_size[p] = remaining` and the popcounts of
the cell masks also sum to `remaining`. -/
theorem claim_C6 (g : ℕ → ℕ) (s : PState) (hs : PReach g s) :
    (∑ p ∈ Finset.range (s.w + 1), p * s.intervalSize.getD p 0)
      = s.n - s.numDrawn ∧
    (s.cells.map (fun c => popcount c.mask)).sum = s.n - s.numDrawn := by
  obtain ⟨⟨hBl, hSl, hbegin, hcover, hpop, hmask, htotal, hcard, hnd⟩, _⟩ :=
    PReach_inv hs
  refine ⟨htotal, ?_⟩
  have h1 : s.cells.map (fun c => popcount c.mask)
      = s.cells.map (fun c => (setBits c.mask).length) :=
    List.map_congr_left (fun a _ => popcount_eq_length a.mask)
  have h2 := PState.card_rem_eq s
  rw [hcard] at h2
  rw [h1, ← h2]

/-- Witness for C6 at a concrete reachable state. -/
theorem claim_C6_witness :
    ((∑ p ∈ Finset.range ((PState.reset 4 0).w + 1),
        p * (PState.reset 4 0).intervalSize.getD p 0)
      = (PState.reset 4 0).n - (PState.reset 4 0).numDrawn) ∧
    (((PState.reset 4 0).cells.map (fun c => popcount c.mask)).sum
      = (PState.reset 4 0).n - (PState.reset 4 0).numDrawn) :=
  claim_C6 (fun _ => 0) (PState.reset 4 0) (PReach.reset 4 0)

/-- C8: on every reachable adaptive-phase state with `num_drawn < n` the
set of drawable mini-decks is non-empty; whatever index the rejection
loop accepts is a drawable one, and a random source that proposes the
drawable index makes the loop accept at once. -/
theorem claim_C8 (g : ℕ → ℕ) (s : ATState) (hs : ATReach g s)
    (hph : s.phaseAdaptive = true) (hlt : s.numDrawn < s.n) :
    s.drawableIndices ≠ [] ∧
    (∀ fuel pos0 i pos',
      ATState.rejLoop g s.d s.currentThreshold s.ell s.sizes fuel pos0
        = .ok (i, pos') →
      i < s.d ∧ s.ell.getD i 0 < s.currentThreshold ∧
        s.ell.getD i 0 < s.sizes.getD i 0) ∧
    (∃ g' i pos', ATState.rejLoop g' s.d s.currentThreshold s.ell s.sizes
      1 s.pos = .ok (i, pos')) := by
  obtain ⟨⟨hA, hF⟩, _⟩ := ATReach_inv hs
  have hAi := hA hph
  obtain ⟨i, hi, h1, h2⟩ := AInv_drawable_peek hAi hlt
  have hd : 0 < s.d := hAi.1
  have hmem : i ∈ s.drawableIndices := by
    rw [ATState.drawableIndices]
    refine List.mem_filter.mpr ⟨List.mem_range.mpr hi, ?_⟩
    simp only [decide_eq_true_eq]
    exact ⟨h1, h2⟩
  refine ⟨?_, ?_, ?_⟩
  · intro h0
    rw [h0] at hmem
    cases hmem
  · intro fuel pos0 i' pos' hok
    exact ATState.rejLoop_ok hd hok
  · refine ⟨fun _ => i, i, s.pos + 1, ?_⟩
    show ATState.rejLoop (fun _ => i) s.d s.currentThreshold s.ell s.sizes
      (0 + 1) s.pos = .ok (i, s.pos + 1)
    rw [ATState.rejLoop]
    have he : uniformInt (fun _ => i) s.pos 0 (s.d - 1) = i := by
      rw [uniformInt]
      have h3 : s.d - 1 + 1 - 0 = s.d := by omega
      rw [h3, Nat.zero_add]
      exact Nat.mod_eq_of_lt hi
    rw [he, if_pos ⟨h1, h2⟩]

/-- Witness for C8 at a concrete reachable adaptive state. -/
theorem claim_C8_witness :
    (ATState.reset 104 0 64).drawableIndices ≠ [] ∧
    (∀ fuel pos0 i pos',
      ATState.rejLoop (fun _ => 0) (ATState.reset 104 0 64).d
        (ATState.reset 104 0 64).currentThreshold (ATState.reset 104 0 64).ell
        (ATState.reset 104 0 64).sizes fuel pos0 = .ok (i, pos') →
      i < (ATState.reset 104 0 64).d ∧
      (ATState.reset 104 0 64).ell.getD i 0
        < (ATState.reset 104 0 64).currentThreshold ∧
      (ATState.reset 104 0 64).ell.getD i 0
        < (ATState.reset 104 0 64).sizes.getD i 0) ∧
    (∃ g' i pos', ATState.rejLoop g' (ATState.reset 104 0 64).d
      (ATState.reset 104 0 64).currentThreshold (ATState.reset 104 0 64).ell
      (ATState.reset 104 0 64).sizes 1 (ATState.reset 104 0 64).pos
        = .ok (i, pos')) :=
  claim_C8 (fun _ => 0) (ATState.reset 104 0 64) (ATReach.reset 104 0 64)
    rfl (by decide)

/-- The population the prefix-sum scan inside `PerfectDealer.draw` picks
(the value of its local `chosen_pop`). -/
def PState.chosenPop (g : ℕ → ℕ) (s : PState) : ℕ :=
  scanPop s.intervalSize s.w (uniformInt g s.pos 0 (s.totalWeight - 1))

/-- The cell `PerfectDealer.draw` samples inside the chosen interval
(the value of its local `cell`). -/
def PState.chosenCell (g : ℕ → ℕ) (s : PState) : PCell :=
  s.cells.getD
    (s.intervalBegin.getD (s.chosenPop g) 0
      + uniformInt g (s.pos + 1) 0 (s.intervalSize.getD (s.chosenPop g) 0 - 1))
    default

/-- The bit rank `PerfectDealer.draw` passes to `bit_select` (its local
`bit_r`). -/
def PState.bitIndex (g : ℕ → ℕ) (s : PState) : ℕ :=
  uniformInt g (s.pos + 2) 0 (s.chosenPop g - 1)

/-- C10: on every reachable `PerfectDealer` state with `num_drawn < n`,
the sampled bit rank is strictly below the popcount of the selected
cell's mask (which equals the chosen population), so `bit_select` never
reaches its error branch and `draw` succeeds. -/
theorem claim_C10 (g : ℕ → ℕ) (s : PState) (hs : PReach g s)
    (hlt : s.numDrawn < s.n) :
    popcount (s.chosenCell g).mask = s.chosenPop g ∧
    s.bitIndex g < popcount (s.chosenCell g).mask ∧
    bitSelect (s.chosenCell g).mask (s.bitIndex g) ≠ none ∧
    ∃ x s', s.draw g = .ok (x, s') := by
  obtain ⟨hInv, _⟩ := PReach_inv hs
  obtain ⟨hBl, hSl, hbegin, hcover, hpop, hmask, htotal, hcard, hnd⟩ := hInv
  have htW : s.totalWeight = s.n - s.numDrawn := by
    rw [totalWeight_eq_range]
    exact htotal
  have htot_pos : 0 < s.totalWeight := by omega
  have hr_lt : uniformInt g s.pos 0 (s.totalWeight - 1) < s.totalWeight := by
    rw [uniformInt]
    have h1 : s.totalWeight - 1 + 1 - 0 = s.totalWeight := by omega
    rw [h1, Nat.zero_add]
    exact Nat.mod_lt _ htot_pos
  have hr_lt' : uniformInt g s.pos 0 (s.totalWeight - 1)
      < ∑ q ∈ Finset.Icc 1 s.w, q * s.intervalSize.getD q 0 := hr_lt
  obtain ⟨hP1, hPw, hSZP⟩ := scanPop_spec hr_lt'
  have hP1' : 1 ≤ s.chosenPop g := hP1
  have hPw' : s.chosenPop g ≤ s.w := hPw
  have hz1 : 1 ≤ s.intervalSize.getD (s.chosenPop g) 0 := hSZP
  have hloc_lt : uniformInt g (s.pos + 1) 0
      (s.intervalSize.getD (s.chosenPop g) 0 - 1)
      < s.intervalSize.getD (s.chosenPop g) 0 := by
    rw [uniformInt]
    have h1 : s.intervalSize.getD (s.chosenPop g) 0 - 1 + 1 - 0
        = s.intervalSize.getD (s.chosenPop g) 0 := by omega
    rw [h1, Nat.zero_add]
    exact Nat.mod_lt _ (by omega)
  have hcellpop : popcount (s.chosenCell g).mask = s.chosenPop g :=
    hpop (s.chosenPop g) hPw' _ hloc_lt
  have hbit_lt : s.bitIndex g < s.chosenPop g := by
    rw [PState.bitIndex, uniformInt]
    have h1 : s.chosenPop g - 1 + 1 - 0 = s.chosenPop g := by omega
    rw [h1, Nat.zero_add]
    exact Nat.mod_lt _ (by omega)
  have hsblen : (setBits (s.chosenCell g).mask).length = s.chosenPop g := by
    rw [← popcount_eq_length, hcellpop]
  have hsel : bitSelect (s.chosenCell g).mask (s.bitIndex g) ≠ none := by
    rw [bitSelect_eq_getElem, List.getElem?_eq_getElem (by omega)]
    simp
  refine ⟨hcellpop, by omega, hsel, ?_⟩
  obtain ⟨x, s', hok, _⟩ := PState.draw_spec g
    ⟨hBl, hSl, hbegin, hcover, hpop, hmask, htotal, hcard, hnd⟩ hlt
  exact ⟨x, s', hok⟩

/-- Witness for C10 at a concrete reachable state. -/
theorem claim_C10_witness :
    popcount ((PState.reset 2 0).chosenCell (fun _ => 0)).mask
      = (PState.reset 2 0).chosenPop (fun _ => 0) ∧
    (PState.reset 2 0).bitIndex (fun _ => 0)
      < popcount ((PState.reset 2 0).chosenCell (fun _ => 0)).mask ∧
    bitSelect ((PState.reset 2 0).chosenCell (fun _ => 0)).mask
      ((PState.reset 2 0).bitIndex (fun _ => 0)) ≠ none ∧
    ∃ x s', (PState.reset 2 0).draw (fun _ => 0) = .ok (x, s') :=
  claim_C10 (fun _ => 0) (PState.reset 2 0) (PReach.reset 2 0) (by decide)

/-- C3: for every dealer and every reachable state,
`peek_next_distribution()` returns `none` exactly when the dealer is
exhausted, and otherwise its probabilities sum to `1`. -/
theorem claim_C3 (g : ℕ → ℕ) :
    (∀ s : FYState, FYReach g s →
      (s.peek = none ↔ s.numDrawn = s.n) ∧
      ∀ l, s.peek = some l → (l.map Prod.snd).sum = (1 : ℚ)) ∧
    (∀ s : BMState, BMReach g s →
      (s.peek = none ↔ s.numDrawn = s.n) ∧
      ∀ l, s.peek = some l → (l.map Prod.snd).sum = (1 : ℚ)) ∧
    (∀ s : ATState, ATReach g s →
      (s.peek = none ↔ s.numDrawn = s.n) ∧
      ∀ l, s.peek = some l → (l.map Prod.snd).sum = (1 : ℚ)) ∧
    (∀ s : PState, PReach g s →
      (s.peek = none ↔ s.numDrawn = s.n) ∧
      ∀ l, s.peek = some l → (l.map Prod.snd).sum = (1 : ℚ)) :=
  ⟨fun _ h => FYState.peek_spec_fy h, fun _ h => BMState.peek_spec_bm h,
   fun _ h => ATState.peek_spec_at h, fun _ h => PState.peek_spec_p h⟩

/-- C2 (amended): `step` fails with *EpisodeOver* on a terminal state; on
a non-terminal state the dealer draws `x`, the score increments exactly
when `action = x % 52` — in **both** action modes, because the code always
compares against `drawn_id % NUM_TYPES` — the histogram cell `x % 52` is
incremented, `t` increases by 1, and the new state is terminal exactly
when `t + 1 ≥ n`. -/
theorem claim_C2_amended {σ : Type} (draw : σ → Except DealerErr (ℕ × σ))
    (s : GameState σ) (action : ℕ) :
    (s.done = true → GameState.step draw action s = .error .episodeOver) ∧
    (∀ s', GameState.step draw action s = .ok s' →
      ∃ x d', draw s.dealer = .ok (x, d') ∧
        s'.dealer = d' ∧ s'.lastDrawnId = some x ∧
        s'.drawnIds = s.drawnIds ++ [x] ∧
        (s'.score = s.score + 1 ↔ action = x % NUM_TYPES) ∧
        (¬ action = x % NUM_TYPES → s'.score = s.score) ∧
        s'.counts = s.counts.set (x % NUM_TYPES)
          (s.counts.getD (x % NUM_TYPES) 0 + 1) ∧
        s'.t = s.t + 1 ∧
        ((s'.done = true) ↔ s.n ≤ s.t + 1) ∧
        s'.n = s.n ∧ s'.actionMode = s.actionMode) := by
  constructor
  · intro hd
    rw [GameState.step, if_pos hd]
  · intro s' hok
    rw [GameState.step] at hok
    split at hok
    · cases hok
    · split at hok
      · cases hok
      · rename_i x d' hdraw
        cases hok
        refine ⟨x, d', hdraw, rfl, rfl, rfl, ?_, ?_, rfl, rfl, ?_, rfl, rfl⟩
        · show (if action = x % NUM_TYPES then s.score + 1 else s.score)
              = s.score + 1 ↔ action = x % NUM_TYPES
          by_cases hac : action = x % NUM_TYPES
          · rw [if_pos hac]
            simp [hac]
          · rw [if_neg hac]
            constructor
            · intro hcon
              omega
            · intro hcc
              exact absurd hcc hac
        · intro hac
          show (if action = x % NUM_TYPES then s.score + 1 else s.score)
            = s.score
          rw [if_neg hac]
        · show (decide (s.n ≤ s.t + 1) = true) ↔ s.n ≤ s.t + 1
          simp

/-- Counterexample to C2 as stated: in `"id"` mode the code still scores
`action = drawn_id % 52`; with `n = 104`, a guess of `0` against the
drawn id `52` is scored as correct even though `0 ≠ 52`. -/
theorem claim_C2_counterexample :
    ¬ (∀ (s : GameState FYState) (action : ℕ) (s' : GameState FYState),
        s.done = false →
        GameState.step (FYState.draw (fun _ => 52)) action s = .ok s' →
        ∀ x, s'.lastDrawnId = some x →
        (s'.score = s.score + 1 ↔ specScoreCond s.actionMode action x)) := by
  intro H
  have h := H (GameState.init 104 ActionMode.id (FYState.reset 104 0)) 0 _
    rfl rfl 52 rfl
  have h2 : (0 : ℕ) = 52 := h.mp rfl
  omega

/-- On the very first draw after `reset`, if the adaptive branch is taken
(`1 ≤ n - 2d` in ℤ, as the code computes it), the returned id is the top
card of one of the `d` mini-decks. -/
theorem AT_first_draw_top (g : ℕ → ℕ) (n pos mBits fuel : ℕ)
    (hcond : (1 : ℤ) ≤ (n : ℤ) - 2 * ((ATState.reset n pos mBits).d : ℤ)) :
    ∀ x s', ATState.draw g fuel (ATState.reset n pos mBits) = .ok (x, s') →
      ∃ i, i < (ATState.reset n pos mBits).d ∧
        x = (ATState.reset n pos mBits).topCard i := by
  intro x s' hok
  have hd1 : 1 ≤ (ATState.reset n pos mBits).d :=
    (ATState.reset_AInv n pos mBits).1
  have hnd0 : (ATState.reset n pos mBits).numDrawn = 0 := rfl
  have hnn : (ATState.reset n pos mBits).n = n := rfl
  have ht0 : (ATState.reset n pos mBits).t = 0 := rfl
  have hn3 : 3 ≤ n := by omega
  rw [ATState.draw, if_neg (by omega),
    if_pos (show (ATState.reset n pos mBits).phaseAdaptive = true from rfl),
    ATState.drawAdaptive_eq, if_neg (by push_cast; omega)] at hok
  split at hok
  · cases hok
  · rename_i i pos' hloop
    cases hok
    obtain ⟨hi, _, _⟩ := ATState.rejLoop_ok (show 0 < (ATState.reset n pos mBits).d by omega) hloop
    exact ⟨i, hi, rfl⟩

/-- C5 (amended): the first drawn id lies among the mini-deck tops only
when the very first step stays in the adaptive phase, i.e. when
`1 ≤ n - 2d`; for `n = 104`, `m_bits = 64` this holds with `d = 8`,
sizes `[13]·8` and starts `[0,13,26,39,52,65,78,91]`, so the first id is
one of those eight values for every random source. -/
theorem claim_C5_amended (g : ℕ → ℕ) (n pos mBits fuel : ℕ) :
    (((1 : ℤ) ≤ (n : ℤ) - 2 * ((ATState.reset n pos mBits).d : ℤ)) →
      ∀ x s', ATState.draw g fuel (ATState.reset n pos mBits) = .ok (x, s') →
        ∃ i, i < (ATState.reset n pos mBits).d ∧
          x = (ATState.reset n pos mBits).topCard i) ∧
    ((ATState.reset 104 pos 64).d = 8 ∧
     (ATState.reset 104 pos 64).sizes = List.replicate 8 13 ∧
     (ATState.reset 104 pos 64).starts = [0, 13, 26, 39, 52, 65, 78, 91]) ∧
    (∀ x s', ATState.draw g fuel (ATState.reset 104 pos 64) = .ok (x, s') →
      x ∈ [0, 13, 26, 39, 52, 65, 78, 91]) := by
  refine ⟨fun hc => AT_first_draw_top g n pos mBits fuel hc,
    ⟨rfl, rfl, rfl⟩, ?_⟩
  intro x s' hok
  obtain ⟨i, hi, hx⟩ := AT_first_draw_top g 104 pos 64 fuel
    (by rw [show (ATState.reset 104 pos 64).d = 8 from rfl]; decide) x s' hok
  subst hx
  rw [show (ATState.reset 104 pos 64).d = 8 from rfl] at hi
  rw [ATState.topCard,
    show (ATState.reset 104 pos 64).starts = [0, 13, 26, 39, 52, 65, 78, 91] from rfl,
    show (ATState.reset 104 pos 64).ell = List.replicate 8 0 from rfl]
  interval_cases i <;> decide

/-- Counterexample to C5 as stated: with `n = 2`, `m_bits = 64` the first
step already transitions to the final phase (`d = 1`, `1 > n - 2d`), and a
random source proposing index 1 makes the first drawn id `1`, which is not
the single mini-deck top `0`. -/
theorem claim_C5_counterexample :
    ¬ (∀ (g : ℕ → ℕ) (n pos mBits fuel : ℕ) (x : ℕ) (s' : ATState),
        ATState.draw g fuel (ATState.reset n pos mBits) = .ok (x, s') →
        ∃ i, i < (ATState.reset n pos mBits).d ∧
          x = (ATState.reset n pos mBits).topCard i) := by
  intro H
  obtain ⟨i, hi, hx⟩ := H (fun _ => 1) 2 0 64 1 1 _ rfl
  rw [show (ATState.reset 2 0 64).d = 1 from rfl] at hi
  interval_cases i
  rw [show (ATState.reset 2 0 64).topCard 0 = 0 from rfl] at hx
  omega

/-- `reset` of each dealer wrapped in the error monad: the source performs
no validation and never raises, so it always returns the initialised
state. -/
def FYState.resetE (n pos : ℕ) : Except DealerErr FYState :=
  .ok (FYState.reset n pos)

/-- `BitmapDealer.reset` in the error monad (never fails). -/
def BMState.resetE (n pos : ℕ) : Except DealerErr BMState :=
  .ok (BMState.reset n pos)

/-- `AdaptiveThresholdDealer.reset` in the error monad (never fails). -/
def ATState.resetE (n pos mBits : ℕ) : Except DealerErr ATState :=
  .ok (ATState.reset n pos mBits)

/-- `PerfectDealer.reset` in the error monad (never fails). -/
def PState.resetE (n pos : ℕ) : Except DealerErr PState :=
  .ok (PState.reset n pos)

/-- Counterexample to C9 as stated: no dealer validates `n < 1`; `reset`
with `n = 0` succeeds instead of failing with *InvalidConfig*. -/
theorem claim_C9_counterexample :
    ¬ (∀ n pos : ℕ, n < 1 →
        FYState.resetE n pos = .error .invalidConfig ∧
        BMState.resetE n pos = .error .invalidConfig ∧
        ATState.resetE n pos 64 = .error .invalidConfig ∧
        PState.resetE n pos = .error .invalidConfig) := by
  intro H
  obtain ⟨h1, _⟩ := H 0 0 (by decide)
  simp [FYState.resetE] at h1

/-- C9 (amended): `reset` never validates its arguments — it succeeds for
every `n`, including `n = 0`, leaving an initialised dealer whose first
`draw` then fails with *Exhausted* (not *InvalidConfig*). -/
theorem claim_C9_amended (g : ℕ → ℕ) (pos mBits fuel : ℕ) :
    (∀ n, FYState.resetE n pos = .ok (FYState.reset n pos) ∧
      BMState.resetE n pos = .ok (BMState.reset n pos) ∧
      ATState.resetE n pos mBits = .ok (ATState.reset n pos mBits) ∧
      PState.resetE n pos = .ok (PState.reset n pos)) ∧
    ((FYState.reset 0 pos).draw g = .error .exhausted ∧
     (BMState.reset 0 pos).draw g fuel = .error .exhausted ∧
     (ATState.reset 0 pos mBits).draw g fuel = .error .exhausted ∧
     (PState.reset 0 pos).draw g = .error .exhausted) := by
  refine ⟨fun n => ⟨rfl, rfl, rfl, rfl⟩, ?_, ?_, ?_, ?_⟩
  · exact FYState.draw_exhausted_fy g (le_refl _)
  · exact BMState.draw_exhausted_bm g fuel (le_refl _)
  · exact ATState.draw_exhausted_at g fuel (le_refl _)
  · exact PState.draw_exhausted_p g (le_refl _)
